import Mathlib

/-!
Shallow embedding of the map-render subsystem of the `mt_client` voxel
client (src/gfx/map.rs, src/gfx/map/mesh.rs, src/gfx/map/atlas.rs), with
theorems checking the natural-language specification against the code.

Modelling conventions:
* `Point3<i16>` chunk coordinates are integers; `wrap16` applies the i16
  two's-complement wrapping that Rust release-mode arithmetic performs.
* `Instant` timestamps are natural numbers (milliseconds); `elapsed()` at
  time `now` is `now - time`.
* `HashMap` is an association list with distinct keys; hash-map iteration
  order (which the source does not rely on) is the list order.
* The crossbeam channel of mesh jobs is the list `sent` of coordinates in
  send order.
-/

namespace MtClient

/-- Two's-complement wrap into the i16 range, as Rust release-mode `+` does. -/
def wrap16 (z : ℤ) : ℤ := (z + 32768) % 65536 - 32768

/-- Chunk coordinate: `Point3<i16>` in the source. -/
abbrev Pos : Type := ℤ × ℤ × ℤ

/-- The component is a value an `i16` can hold. -/
def inI16 (z : ℤ) : Prop := -32768 ≤ z ∧ z < 32768

instance : DecidablePred inI16 := fun z => by unfold inI16; infer_instance

/-- All three components of a `Point3<i16>` are in the i16 range (always true
    of the Rust value by its type). -/
def posInRange (p : Pos) : Prop := inI16 p.1 ∧ inI16 p.2.1 ∧ inI16 p.2.2

instance : DecidablePred posInRange := fun p => by unfold posInRange; infer_instance

/-- `FACE_DIR` from src/gfx/map.rs: the 6 face-neighbor offsets,
    `[[0,1,0],[0,-1,0],[1,0,0],[-1,0,0],[0,0,1],[0,0,-1]]`. -/
def FACE_DIR : Fin 6 → Fin 3 → ℤ
  | 0 => ![0, 1, 0]
  | 1 => ![0, -1, 0]
  | 2 => ![1, 0, 0]
  | 3 => ![-1, 0, 0]
  | 4 => ![0, 0, 1]
  | 5 => ![0, 0, -1]

/-- `pos + Vector3::from(FACE_DIR[f])` on `Point3<i16>` (componentwise i16 add). -/
def offsetPos (p : Pos) (f : Fin 6) : Pos :=
  (wrap16 (p.1 + FACE_DIR f 0), wrap16 (p.2.1 + FACE_DIR f 1), wrap16 (p.2.2 + FACE_DIR f 2))

/-- `f ^ 1` in src/gfx/map.rs: the opposite face direction (xor with 1). -/
def oppFace : Fin 6 → Fin 6
  | 0 => 1
  | 1 => 0
  | 2 => 3
  | 3 => 2
  | 4 => 5
  | 5 => 4

/-- `DeferredBlock` from src/gfx/map.rs: count of unresolved neighbor
    directions, mask of satisfied directions, and creation timestamp. -/
structure DeferredBlock where
  count : ℕ
  mask : Fin 6 → Bool
  time : ℕ
  deriving DecidableEq

/-- The `HashMap<Point3<i16>, DeferredBlock>` `blocks_defer`, as an
    association list with distinct keys. -/
abbrev DeferList := List (Pos × DeferredBlock)

/-- `HashMap::get` on the deferred-block map. -/
def lookupD : DeferList → Pos → Option DeferredBlock
  | [], _ => none
  | e :: t, p => if e.1 = p then some e.2 else lookupD t p

/-- Overwriting the value of an existing key (`Entry::Occupied` mutation). -/
def setD : DeferList → Pos → DeferredBlock → DeferList
  | [], _, _ => []
  | e :: t, p, v => if e.1 = p then (p, v) :: t else e :: setD t p v

/-- `OccupiedEntry::remove`. -/
def eraseD : DeferList → Pos → DeferList
  | [], _ => []
  | e :: t, p => if e.1 = p then t else e :: eraseD t p

/-- The part of the `MapRender` state that the readiness tracker
    (`add_block`/`update`) reads and writes: the block store key set, the
    deferred-block map, and the log of coordinates sent to the mesh channel. -/
structure MapRender where
  blocks : List Pos
  blocks_defer : DeferList
  sent : List Pos
  deriving DecidableEq

/-- The loop-carried state of the neighbor loop in `MapRender::add_block`:
    the deferred map and channel as mutated so far, plus the local
    `count`/`mask` being computed for the inserted chunk. -/
structure LoopState where
  defer : DeferList
  sent : List Pos
  count : ℕ
  mask : Fin 6 → Bool

/-- One iteration of the `for (f, off) in FACE_DIR.iter().enumerate()` loop
    in `MapRender::add_block` (src/gfx/map.rs lines 233-258). `blocks` is the
    block store as read after inserting the new chunk. -/
def faceStep (blocks : List Pos) (pos : Pos) (st : LoopState) (f : Fin 6) : LoopState :=
  match lookupD st.defer (offsetPos pos f) with
  | some inner =>
      -- `if !inner.mask[rf] { … }` with `rf = f ^ 1`, then `mask[f] = true; count -= 1`
      if inner.mask (oppFace f) = false then
        if inner.count - 1 = 0 then
          ⟨eraseD st.defer (offsetPos pos f), st.sent ++ [offsetPos pos f],
            st.count - 1, Function.update st.mask f true⟩
        else
          ⟨setD st.defer (offsetPos pos f)
              ⟨inner.count - 1, Function.update inner.mask (oppFace f) true, inner.time⟩,
            st.sent, st.count - 1, Function.update st.mask f true⟩
      else
        ⟨st.defer, st.sent, st.count - 1, Function.update st.mask f true⟩
  | none =>
      if offsetPos pos f ∈ blocks then
        ⟨st.defer, st.sent ++ [offsetPos pos f], st.count - 1, Function.update st.mask f true⟩
      else st

/-- `MapRender::add_block` (src/gfx/map.rs lines 225-278). `now` is the
    current instant, used for a freshly created deferred record. -/
def add_block (s : MapRender) (pos : Pos) (now : ℕ) : MapRender :=
  let blocks := pos :: s.blocks
  let st0 : LoopState := ⟨s.blocks_defer, s.sent, 6, fun _ => false⟩
  let st := (List.finRange 6).foldl (faceStep blocks pos) st0
  if st.count = 0 then
    ⟨blocks, st.defer, st.sent ++ [pos]⟩
  else
    match lookupD st.defer pos with
    | some x => ⟨blocks, setD st.defer pos ⟨st.count, st.mask, x.time⟩, st.sent⟩
    | none => ⟨blocks, (pos, ⟨st.count, st.mask, now⟩) :: st.defer, st.sent⟩

/-- The deferred-block scan of `MapRender::update` (src/gfx/map.rs lines
    194-200): drain every record whose age exceeds 100 ms and send its
    coordinate to the mesh channel. -/
def MapRender.update (s : MapRender) (now : ℕ) : MapRender :=
  let timedOut := s.blocks_defer.filter (fun e => decide (100 < now - e.2.time))
  { s with
      blocks_defer := s.blocks_defer.filter (fun e => !decide (100 < now - e.2.time)),
      sent := s.sent ++ timedOut.map Prod.fst }

/-- Number of unsatisfied (false) directions in a deferred-block mask. -/
def numFalse (mask : Fin 6 → Bool) : ℕ :=
  (List.finRange 6).countP (fun f => decide (mask f = false))

/-- State invariant of the readiness tracker: deferred keys are distinct,
    in i16 range and present in the block store; a record's mask bit is set
    exactly when that face neighbor is in the block store; its count is the
    number of unset bits and is at least 1. -/
def Inv (s : MapRender) : Prop :=
  (s.blocks_defer.map Prod.fst).Nodup ∧
  ∀ e ∈ s.blocks_defer,
    posInRange e.1 ∧ e.1 ∈ s.blocks ∧
    (∀ f : Fin 6, e.2.mask f = true ↔ offsetPos e.1 f ∈ s.blocks) ∧
    e.2.count = numFalse e.2.mask ∧ 1 ≤ e.2.count

instance (s : MapRender) : Decidable (Inv s) := by unfold Inv; infer_instance

/-! #### Arithmetic of coordinates -/

theorem wrap16_eq_self {z : ℤ} (h : inI16 z) : wrap16 z = z := by
  obtain ⟨h1, h2⟩ := h; unfold wrap16; omega

theorem offsetPos_ne_self (p : Pos) (f : Fin 6) : offsetPos p f ≠ p := by
  obtain ⟨x, y, z⟩ := p
  fin_cases f <;> simp [offsetPos, FACE_DIR, wrap16, Prod.ext_iff] <;> omega

theorem offsetPos_cancel {p : Pos} (hp : posInRange p) (f : Fin 6) :
    offsetPos (offsetPos p f) (oppFace f) = p := by
  obtain ⟨⟨a1, a2⟩, ⟨b1, b2⟩, ⟨c1, c2⟩⟩ := hp
  obtain ⟨x, y, z⟩ := p
  simp only [inI16] at a1 a2 b1 b2 c1 c2
  fin_cases f <;> simp [offsetPos, oppFace, FACE_DIR, wrap16, Prod.ext_iff] <;> omega

theorem offsetPos_inj {p : Pos} {f g : Fin 6} (h : offsetPos p f = offsetPos p g) :
    f = g := by
  obtain ⟨x, y, z⟩ := p
  fin_cases f <;> fin_cases g <;>
      simp_all [offsetPos, FACE_DIR, wrap16, Prod.ext_iff] <;> omega

theorem oppFace_oppFace : ∀ f : Fin 6, oppFace (oppFace f) = f := by decide

/-- A neighbor relation seen from the other side: if `q`'s face-`f` neighbor
    is `p`, then `p`'s face-`oppFace f` neighbor is `q`. -/
theorem offsetPos_symm {p q : Pos} (hq : posInRange q) {f : Fin 6}
    (h : offsetPos q f = p) : offsetPos p (oppFace f) = q := by
  subst h; exact offsetPos_cancel hq f

/-! #### Association-list lemmas -/

theorem lookupD_setD_self (l : DeferList) (p : Pos) (v : DeferredBlock) :
    lookupD (setD l p v) p = (lookupD l p).map fun _ => v := by
  induction l with
  | nil => rfl
  | cons e t ih =>
      by_cases h : e.1 = p <;> simp [setD, lookupD, h, ih]

theorem lookupD_setD_ne (l : DeferList) {p q : Pos} (v : DeferredBlock) (h : q ≠ p) :
    lookupD (setD l p v) q = lookupD l q := by
  induction l with
  | nil => rfl
  | cons e t ih =>
      by_cases he : e.1 = p
      · simp [setD, lookupD, he, Ne.symm h]
      · simp [setD, lookupD, he, ih]

theorem lookupD_eraseD_ne (l : DeferList) {p q : Pos} (h : q ≠ p) :
    lookupD (eraseD l p) q = lookupD l q := by
  induction l with
  | nil => rfl
  | cons e t ih =>
      by_cases he : e.1 = p
      · simp [eraseD, lookupD, he, Ne.symm h]
      · simp [eraseD, lookupD, he, ih]

theorem lookupD_isSome_iff (l : DeferList) (p : Pos) :
    (lookupD l p).isSome = true ↔ p ∈ l.map Prod.fst := by
  induction l with
  | nil => simp [lookupD]
  | cons e t ih =>
      by_cases he : e.1 = p
      · simp [lookupD, he]
      · simp only [lookupD, if_neg he, List.map_cons, List.mem_cons]
        rw [ih]
        constructor
        · exact Or.inr
        · rintro (h | h)
          · exact absurd h.symm he
          · exact h

theorem lookupD_eq_none_iff (l : DeferList) (p : Pos) :
    lookupD l p = none ↔ p ∉ l.map Prod.fst := by
  rw [← lookupD_isSome_iff]
  cases lookupD l p <;> simp

theorem lookupD_eraseD_self (l : DeferList) (p : Pos)
    (h : (l.map Prod.fst).Nodup) : lookupD (eraseD l p) p = none := by
  induction l with
  | nil => rfl
  | cons e t ih =>
      simp only [List.map_cons, List.nodup_cons] at h
      by_cases he : e.1 = p
      · subst he
        simp only [eraseD, if_pos rfl]
        rw [lookupD_eq_none_iff]
        exact h.1
      · simp [eraseD, lookupD, he, ih h.2]

theorem setD_map_fst (l : DeferList) (p : Pos) (v : DeferredBlock) :
    (setD l p v).map Prod.fst = l.map Prod.fst := by
  induction l with
  | nil => rfl
  | cons e t ih =>
      by_cases he : e.1 = p <;> simp [setD, he, ih]

theorem eraseD_map_fst_sublist (l : DeferList) (p : Pos) :
    ((eraseD l p).map Prod.fst).Sublist (l.map Prod.fst) := by
  induction l with
  | nil => simp [eraseD]
  | cons e t ih =>
      by_cases he : e.1 = p
      · simp only [eraseD, if_pos he, List.map_cons]
        exact (List.sublist_cons_self _ _)
      · simp only [eraseD, if_neg he, List.map_cons]
        exact ih.cons₂ _

theorem lookupD_mem {l : DeferList} {p : Pos} {d : DeferredBlock}
    (h : lookupD l p = some d) : (p, d) ∈ l := by
  induction l with
  | nil => simp [lookupD] at h
  | cons e t ih =>
      by_cases he : e.1 = p
      · simp only [lookupD, if_pos he, Option.some.injEq] at h
        have : e = (p, d) := by
          obtain ⟨e1, e2⟩ := e
          cases he
          cases h
          rfl
        rw [← this]
        exact List.mem_cons_self _ _
      · simp only [lookupD, if_neg he] at h
        exact List.mem_cons_of_mem _ (ih h)

theorem mem_lookupD {l : DeferList} {p : Pos} {d : DeferredBlock}
    (hn : (l.map Prod.fst).Nodup) (h : (p, d) ∈ l) : lookupD l p = some d := by
  induction l with
  | nil => simp at h
  | cons e t ih =>
      simp only [List.map_cons, List.nodup_cons] at hn
      rcases List.mem_cons.1 h with h | h
      · subst h; simp [lookupD]
      · have hne : e.1 ≠ p := by
          intro he
          exact hn.1 (he ▸ (List.mem_map.2 ⟨(p, d), h, rfl⟩))
        simp [lookupD, hne, ih hn.2 h]

/-! #### Characterizing one iteration of the neighbor loop -/

/-- Whether the inserted chunk's direction `f` counts as satisfied at a loop
    iteration: its neighbor has a deferred record, or is in the block store. -/
def condB (blocks : List Pos) (defer : DeferList) (npos : Pos) : Bool :=
  (lookupD defer npos).isSome || decide (npos ∈ blocks)

/-- Whether the loop iteration for direction `f` sends the neighbor to the
    mesh channel: either its deferred count reaches 0, or it has no record
    but is present in the block store. -/
def stepSends (blocks : List Pos) (defer : DeferList) (npos : Pos) (f : Fin 6) : Bool :=
  match lookupD defer npos with
  | some d => decide (d.mask (oppFace f) = false) && decide (d.count - 1 = 0)
  | none => decide (npos ∈ blocks)

/-- The effect of the loop iteration for direction `f` on the neighbor's
    deferred record. -/
def deferTransform (f : Fin 6) : Option DeferredBlock → Option DeferredBlock
  | none => none
  | some d =>
      if d.mask (oppFace f) = false then
        if d.count - 1 = 0 then none
        else some ⟨d.count - 1, Function.update d.mask (oppFace f) true, d.time⟩
      else some d

theorem faceStep_defer_ne (blocks : List Pos) (pos : Pos) (st : LoopState) (f : Fin 6)
    {q : Pos} (hq : q ≠ offsetPos pos f) :
    lookupD (faceStep blocks pos st f).defer q = lookupD st.defer q := by
  rcases hl : lookupD st.defer (offsetPos pos f) with _ | inner
  · simp only [faceStep, hl]
    split <;> rfl
  · simp only [faceStep, hl]
    by_cases hm : inner.mask (oppFace f) = false
    · by_cases hc : inner.count - 1 = 0
      · simp [hm, hc, lookupD_eraseD_ne _ hq]
      · simp [hm, hc, lookupD_setD_ne _ _ hq]
    · simp [hm]

theorem faceStep_defer_self (blocks : List Pos) (pos : Pos) (st : LoopState) (f : Fin 6)
    (hn : (st.defer.map Prod.fst).Nodup) :
    lookupD (faceStep blocks pos st f).defer (offsetPos pos f) =
      deferTransform f (lookupD st.defer (offsetPos pos f)) := by
  rcases hl : lookupD st.defer (offsetPos pos f) with _ | inner
  · simp only [faceStep, hl, deferTransform]
    split <;> simp [hl]
  · simp only [faceStep, hl, deferTransform]
    by_cases hm : inner.mask (oppFace f) = false
    · by_cases hc : inner.count - 1 = 0
      · simp [hm, hc, lookupD_eraseD_self _ _ hn]
      · simp [hm, hc, lookupD_setD_self, hl]
    · simp [hm, hl]

theorem faceStep_mask (blocks : List Pos) (pos : Pos) (st : LoopState) (f : Fin 6) :
    (faceStep blocks pos st f).mask =
      if condB blocks st.defer (offsetPos pos f) then Function.update st.mask f true
      else st.mask := by
  rcases hl : lookupD st.defer (offsetPos pos f) with _ | inner
  · simp only [faceStep, hl, condB]
    by_cases hb : offsetPos pos f ∈ blocks <;> simp [hb]
  · simp only [faceStep, hl, condB]
    by_cases hm : inner.mask (oppFace f) = false
    · by_cases hc : inner.count - 1 = 0 <;> simp [hm, hc]
    · simp [hm]

theorem faceStep_count (blocks : List Pos) (pos : Pos) (st : LoopState) (f : Fin 6) :
    (faceStep blocks pos st f).count =
      st.count - (if condB blocks st.defer (offsetPos pos f) then 1 else 0) := by
  rcases hl : lookupD st.defer (offsetPos pos f) with _ | inner
  · simp only [faceStep, hl, condB]
    by_cases hb : offsetPos pos f ∈ blocks <;> simp [hb]
  · simp only [faceStep, hl, condB]
    by_cases hm : inner.mask (oppFace f) = false
    · by_cases hc : inner.count - 1 = 0 <;> simp [hm, hc]
    · simp [hm]

theorem faceStep_sent (blocks : List Pos) (pos : Pos) (st : LoopState) (f : Fin 6) :
    (faceStep blocks pos st f).sent =
      st.sent ++ (if stepSends blocks st.defer (offsetPos pos f) f then [offsetPos pos f]
        else []) := by
  rcases hl : lookupD st.defer (offsetPos pos f) with _ | inner
  · simp only [faceStep, hl, stepSends]
    by_cases hb : offsetPos pos f ∈ blocks <;> simp [hb]
  · simp only [faceStep, hl, stepSends]
    by_cases hm : inner.mask (oppFace f) = false
    · by_cases hc : inner.count - 1 = 0 <;> simp [hm, hc]
    · simp [hm]

theorem faceStep_keys_sublist (blocks : List Pos) (pos : Pos) (st : LoopState) (f : Fin 6) :
    ((faceStep blocks pos st f).defer.map Prod.fst).Sublist (st.defer.map Prod.fst) := by
  rcases hl : lookupD st.defer (offsetPos pos f) with _ | inner
  · simp only [faceStep, hl]
    split <;> exact List.Sublist.refl _
  · simp only [faceStep, hl]
    by_cases hm : inner.mask (oppFace f) = false
    · by_cases hc : inner.count - 1 = 0
      · simp only [hm, hc, if_true]
        exact eraseD_map_fst_sublist _ _
      · simp only [hm, hc, if_true, if_false]
        rw [setD_map_fst]
    · simp [hm]

/-! #### Characterizing the whole neighbor loop -/

theorem condB_faceStep (blocks : List Pos) (pos : Pos) (st : LoopState) (f₀ : Fin 6)
    {npos : Pos} (h : npos ≠ offsetPos pos f₀) :
    condB blocks (faceStep blocks pos st f₀).defer npos = condB blocks st.defer npos := by
  unfold condB
  rw [faceStep_defer_ne _ _ _ _ h]

theorem stepSends_faceStep (blocks : List Pos) (pos : Pos) (st : LoopState) (f₀ : Fin 6)
    {npos : Pos} (f : Fin 6) (h : npos ≠ offsetPos pos f₀) :
    stepSends blocks (faceStep blocks pos st f₀).defer npos f =
      stepSends blocks st.defer npos f := by
  unfold stepSends
  rw [faceStep_defer_ne _ _ _ _ h]

theorem loop_defer_ne (blocks : List Pos) (pos : Pos) (fs : List (Fin 6)) (st : LoopState)
    {q : Pos} (hq : ∀ f ∈ fs, q ≠ offsetPos pos f) :
    lookupD ((fs.foldl (faceStep blocks pos) st)).defer q = lookupD st.defer q := by
  induction fs generalizing st with
  | nil => rfl
  | cons f₀ fs ih =>
      rw [List.foldl_cons, ih _ fun f hf => hq f (List.mem_cons_of_mem _ hf),
        faceStep_defer_ne _ _ _ _ (hq f₀ (List.mem_cons_self _ _))]

theorem loop_keys_sublist (blocks : List Pos) (pos : Pos) (fs : List (Fin 6))
    (st : LoopState) :
    (((fs.foldl (faceStep blocks pos) st)).defer.map Prod.fst).Sublist
      (st.defer.map Prod.fst) := by
  induction fs generalizing st with
  | nil => exact List.Sublist.refl _
  | cons f₀ fs ih =>
      rw [List.foldl_cons]
      exact (ih _).trans (faceStep_keys_sublist _ _ _ _)

theorem loop_mask_notMem (blocks : List Pos) (pos : Pos) (fs : List (Fin 6))
    (st : LoopState) {f : Fin 6} (hf : f ∉ fs) :
    ((fs.foldl (faceStep blocks pos) st)).mask f = st.mask f := by
  induction fs generalizing st with
  | nil => rfl
  | cons f₀ fs ih =>
      rw [List.foldl_cons, ih _ fun h => hf (List.mem_cons_of_mem _ h), faceStep_mask]
      have hne : f ≠ f₀ := fun h => hf (h ▸ List.mem_cons_self _ _)
      split
      · rw [Function.update_noteq hne]
      · rfl

theorem loop_mask_mem (blocks : List Pos) (pos : Pos) (fs : List (Fin 6)) (st : LoopState)
    (hnd : fs.Nodup) {f : Fin 6} (hf : f ∈ fs) :
    ((fs.foldl (faceStep blocks pos) st)).mask f =
      (condB blocks st.defer (offsetPos pos f) || st.mask f) := by
  induction fs generalizing st with
  | nil => simp at hf
  | cons f₀ fs ih =>
      rw [List.nodup_cons] at hnd
      rw [List.foldl_cons]
      rcases List.mem_cons.1 hf with hf | hf
      · subst hf
        rw [loop_mask_notMem _ _ _ _ hnd.1, faceStep_mask]
        rcases hcond : condB blocks st.defer (offsetPos pos f) with _ | _
        · simp
        · simp [Function.update_same]
      · have hne : f ≠ f₀ := fun h => hnd.1 (h ▸ hf)
        have hne' : offsetPos pos f ≠ offsetPos pos f₀ := fun h => hne (offsetPos_inj h)
        rw [ih _ hnd.2 hf, condB_faceStep _ _ _ _ hne', faceStep_mask]
        split
        · rw [Function.update_noteq hne]
        · rfl

theorem loop_count (blocks : List Pos) (pos : Pos) (fs : List (Fin 6)) (st : LoopState)
    (hnd : fs.Nodup) :
    ((fs.foldl (faceStep blocks pos) st)).count =
      st.count - fs.countP (fun f => condB blocks st.defer (offsetPos pos f)) := by
  induction fs generalizing st with
  | nil => rfl
  | cons f₀ fs ih =>
      rw [List.nodup_cons] at hnd
      rw [List.foldl_cons, ih _ hnd.2]
      have hcp :
          fs.countP
              (fun f => condB blocks (faceStep blocks pos st f₀).defer (offsetPos pos f)) =
            fs.countP (fun f => condB blocks st.defer (offsetPos pos f)) := by
        refine List.countP_congr ?_
        intro f hf
        have hne : offsetPos pos f ≠ offsetPos pos f₀ :=
          fun h => hnd.1 ((offsetPos_inj h) ▸ hf)
        rw [condB_faceStep blocks pos st f₀ hne]
      rw [hcp, faceStep_count, List.countP_cons]
      rcases condB blocks st.defer (offsetPos pos f₀) with _ | _ <;> simp <;> omega

theorem loop_sent (blocks : List Pos) (pos : Pos) (fs : List (Fin 6)) (st : LoopState)
    (hnd : fs.Nodup) :
    ((fs.foldl (faceStep blocks pos) st)).sent =
      st.sent ++
        (fs.filter (fun f => stepSends blocks st.defer (offsetPos pos f) f)).map
          (fun f => offsetPos pos f) := by
  induction fs generalizing st with
  | nil => simp
  | cons f₀ fs ih =>
      rw [List.nodup_cons] at hnd
      rw [List.foldl_cons, ih _ hnd.2]
      have hcp :
          fs.filter
              (fun f =>
                stepSends blocks (faceStep blocks pos st f₀).defer (offsetPos pos f) f) =
            fs.filter (fun f => stepSends blocks st.defer (offsetPos pos f) f) := by
        refine List.filter_congr ?_
        intro f hf
        have hne : offsetPos pos f ≠ offsetPos pos f₀ :=
          fun h => hnd.1 ((offsetPos_inj h) ▸ hf)
        rw [stepSends_faceStep blocks pos st f₀ f hne]
      rw [hcp, faceStep_sent, List.filter_cons]
      rcases stepSends blocks st.defer (offsetPos pos f₀) f₀ with _ | _ <;> simp

theorem loop_defer_mem (blocks : List Pos) (pos : Pos) (fs : List (Fin 6)) (st : LoopState)
    (hnd : fs.Nodup) (hkeys : (st.defer.map Prod.fst).Nodup) {g : Fin 6} (hg : g ∈ fs) :
    lookupD ((fs.foldl (faceStep blocks pos) st)).defer (offsetPos pos g) =
      deferTransform g (lookupD st.defer (offsetPos pos g)) := by
  induction fs generalizing st with
  | nil => simp at hg
  | cons f₀ fs ih =>
      rw [List.nodup_cons] at hnd
      rw [List.foldl_cons]
      rcases List.mem_cons.1 hg with hg | hg
      · subst hg
        have h1 :
            lookupD ((fs.foldl (faceStep blocks pos) (faceStep blocks pos st g))).defer
                (offsetPos pos g) =
              lookupD (faceStep blocks pos st g).defer (offsetPos pos g) :=
          loop_defer_ne _ _ _ _ fun f hf h => hnd.1 ((offsetPos_inj h) ▸ hf)
        rw [h1, faceStep_defer_self _ _ _ _ hkeys]
      · have hgf : g ≠ f₀ := fun h => hnd.1 (h ▸ hg)
        have hne : offsetPos pos g ≠ offsetPos pos f₀ := fun h => hgf (offsetPos_inj h)
        rw [ih _ hnd.2 (List.Nodup.sublist (faceStep_keys_sublist _ _ _ _) hkeys) hg,
          faceStep_defer_ne _ _ _ _ hne]

/-! #### Characterizing `add_block` -/

/-- Which face neighbors of `pos` are in the block store. -/
def presentMask (blocks : List Pos) (pos : Pos) : Fin 6 → Bool :=
  fun f => decide (offsetPos pos f ∈ blocks)

theorem countP_true_add_numFalse :
    ∀ m : Fin 6 → Bool, (List.finRange 6).countP (fun f => m f) + numFalse m = 6 := by
  decide

theorem numFalse_le_six : ∀ m : Fin 6 → Bool, numFalse m ≤ 6 := by decide

theorem numFalse_update :
    ∀ (m : Fin 6 → Bool) (f : Fin 6), m f = false →
      numFalse (Function.update m f true) = numFalse m - 1 ∧ 1 ≤ numFalse m := by
  decide

theorem numFalse_eq_zero_iff :
    ∀ m : Fin 6 → Bool, numFalse m = 0 ↔ ∀ f, m f = true := by decide

theorem condB_presentMask {s : MapRender} (hInv : Inv s) {pos : Pos} (f : Fin 6) :
    condB (pos :: s.blocks) s.blocks_defer (offsetPos pos f) = presentMask s.blocks pos f := by
  unfold condB presentMask
  rcases h : (lookupD s.blocks_defer (offsetPos pos f)).isSome with _ | _
  · have hne := offsetPos_ne_self pos f
    simp [List.mem_cons, hne]
  · have hk : offsetPos pos f ∈ s.blocks_defer.map Prod.fst := (lookupD_isSome_iff _ _).1 h
    obtain ⟨e, he, hfst⟩ := List.mem_map.1 hk
    have hb : e.1 ∈ s.blocks := (hInv.2 e he).2.1
    rw [hfst] at hb
    simp [hb]

/-- Number of occurrences of a coordinate in a send log. -/
def occ (p : Pos) (l : List Pos) : ℕ := l.countP (fun q => decide (q = p))

theorem occ_append (p : Pos) (l₁ l₂ : List Pos) :
    occ p (l₁ ++ l₂) = occ p l₁ + occ p l₂ := List.countP_append _ _ _

theorem occ_nil (p : Pos) : occ p [] = 0 := rfl

theorem occ_eq_zero_of_not_mem {p : Pos} {l : List Pos} (h : p ∉ l) : occ p l = 0 := by
  rw [occ, List.countP_eq_zero]
  intro q hq
  simp only [decide_eq_true_eq]
  intro he
  exact h (he ▸ hq)

/-- Number of occurrences of a face index in a list of face indices. -/
def occFin (g : Fin 6) (l : List (Fin 6)) : ℕ := l.countP (fun x => decide (x = g))

theorem occFin_filter_finRange :
    ∀ (p : Fin 6 → Bool) (g : Fin 6),
      occFin g ((List.finRange 6).filter p) = if p g then 1 else 0 := by
  decide

theorem occ_map_offsetPos (pos : Pos) (g : Fin 6) (l : List (Fin 6)) :
    occ (offsetPos pos g) (l.map fun f => offsetPos pos f) = occFin g l := by
  rw [occ, List.countP_map, occFin]
  refine List.countP_congr ?_
  intro f _
  show (decide (offsetPos pos f = offsetPos pos g) = true) ↔ (decide (f = g) = true)
  simp only [decide_eq_true_eq]
  exact ⟨fun h => offsetPos_inj h, fun h => h ▸ rfl⟩

/-- Everything the claims need to know about one `add_block` call, stated
    against the state before the call. `presentMask s.blocks pos` is the mask
    of face directions whose neighbor chunk is in the block store. -/
theorem add_block_char (s : MapRender) (pos : Pos) (now : ℕ)
    (hInv : Inv s) (hp : posInRange pos) :
    (add_block s pos now).blocks = pos :: s.blocks ∧
    ((add_block s pos now).blocks_defer.map Prod.fst).Nodup ∧
    (∀ q : Pos, (∀ f : Fin 6, q ≠ offsetPos pos f) → q ≠ pos →
      lookupD (add_block s pos now).blocks_defer q = lookupD s.blocks_defer q) ∧
    (∀ g : Fin 6, lookupD (add_block s pos now).blocks_defer (offsetPos pos g) =
      deferTransform g (lookupD s.blocks_defer (offsetPos pos g))) ∧
    (lookupD (add_block s pos now).blocks_defer pos =
      if numFalse (presentMask s.blocks pos) = 0 then lookupD s.blocks_defer pos
      else some ⟨numFalse (presentMask s.blocks pos), presentMask s.blocks pos,
        match lookupD s.blocks_defer pos with
        | some d => d.time
        | none => now⟩) ∧
    (occ pos (add_block s pos now).sent =
      occ pos s.sent + (if numFalse (presentMask s.blocks pos) = 0 then 1 else 0)) ∧
    (∀ g : Fin 6, occ (offsetPos pos g) (add_block s pos now).sent =
      occ (offsetPos pos g) s.sent +
        (if stepSends (pos :: s.blocks) s.blocks_defer (offsetPos pos g) g then 1 else 0)) := by
  have hfinnd : (List.finRange 6).Nodup := List.nodup_finRange 6
  have hkeys : (s.blocks_defer.map Prod.fst).Nodup := hInv.1
  set blocks' : List Pos := pos :: s.blocks with hblocks'
  set st0 : LoopState := ⟨s.blocks_defer, s.sent, 6, fun _ => false⟩ with hst0
  set st := (List.finRange 6).foldl (faceStep blocks' pos) st0 with hst
  set m := presentMask s.blocks pos with hm
  have hcond : ∀ f : Fin 6, condB blocks' st0.defer (offsetPos pos f) = m f :=
    fun f => condB_presentMask hInv f
  have hcount : st.count = numFalse m := by
    rw [hst, loop_count _ _ _ _ hfinnd]
    have h1 : (List.finRange 6).countP (fun f => condB blocks' st0.defer (offsetPos pos f)) =
        (List.finRange 6).countP (fun f => m f) :=
      List.countP_congr fun f _ => by rw [hcond f]
    rw [h1]
    have h2 := countP_true_add_numFalse m
    have h3 : st0.count = 6 := rfl
    omega
  have hmask : ∀ f, st.mask f = m f := by
    intro f
    rw [hst, loop_mask_mem _ _ _ _ hfinnd (List.mem_finRange f), hcond f]
    simp [hst0]
  have hdefer_pos : lookupD st.defer pos = lookupD s.blocks_defer pos := by
    rw [hst, loop_defer_ne]
    intro f _ h
    exact offsetPos_ne_self pos f h.symm
  have hdefer_far : ∀ q : Pos, (∀ f : Fin 6, q ≠ offsetPos pos f) →
      lookupD st.defer q = lookupD s.blocks_defer q := by
    intro q hq
    rw [hst, loop_defer_ne]
    exact fun f _ => hq f
  have hdefer_off : ∀ g : Fin 6, lookupD st.defer (offsetPos pos g) =
      deferTransform g (lookupD s.blocks_defer (offsetPos pos g)) := by
    intro g
    rw [hst, loop_defer_mem _ _ _ _ hfinnd hkeys (List.mem_finRange g)]
  have hsent : st.sent = s.sent ++
      ((List.finRange 6).filter
        (fun f => stepSends blocks' s.blocks_defer (offsetPos pos f) f)).map
        (fun f => offsetPos pos f) := by
    rw [hst, loop_sent _ _ _ _ hfinnd]
  have hstnd : (st.defer.map Prod.fst).Nodup :=
    List.Nodup.sublist (hst ▸ loop_keys_sublist blocks' pos (List.finRange 6) st0) hkeys
  have hsent_count_pos : occ pos st.sent = occ pos s.sent := by
    rw [hsent, occ_append]
    have hnm : pos ∉ ((List.finRange 6).filter
        (fun f => stepSends blocks' s.blocks_defer (offsetPos pos f) f)).map
        (fun f => offsetPos pos f) := by
      intro hmem
      obtain ⟨f, _, hf⟩ := List.mem_map.1 hmem
      exact offsetPos_ne_self pos f hf
    rw [occ_eq_zero_of_not_mem hnm, Nat.add_zero]
  have hsent_count_off : ∀ g : Fin 6, occ (offsetPos pos g) st.sent =
      occ (offsetPos pos g) s.sent +
        (if stepSends blocks' s.blocks_defer (offsetPos pos g) g then 1 else 0) := by
    intro g
    rw [hsent, occ_append]
    congr 1
    rw [occ_map_offsetPos, occFin_filter_finRange]
  have hcomp : add_block s pos now =
      (if st.count = 0 then (⟨blocks', st.defer, st.sent ++ [pos]⟩ : MapRender)
       else match lookupD st.defer pos with
        | some x => ⟨blocks', setD st.defer pos ⟨st.count, st.mask, x.time⟩, st.sent⟩
        | none => ⟨blocks', (pos, ⟨st.count, st.mask, now⟩) :: st.defer, st.sent⟩) := rfl
  have hblocks2 : (add_block s pos now).blocks = pos :: s.blocks := by
    rw [hcomp]
    split
    · rfl
    · rcases lookupD st.defer pos with _ | x <;> rfl
  have hdefer' : (add_block s pos now).blocks_defer =
      (if st.count = 0 then st.defer
       else match lookupD st.defer pos with
        | some x => setD st.defer pos ⟨st.count, st.mask, x.time⟩
        | none => (pos, ⟨st.count, st.mask, now⟩) :: st.defer) := by
    rw [hcomp]
    split
    · rfl
    · rcases lookupD st.defer pos with _ | x <;> rfl
  have hsent' : (add_block s pos now).sent =
      st.sent ++ (if st.count = 0 then [pos] else []) := by
    rw [hcomp]
    split
    · rfl
    · rcases lookupD st.defer pos with _ | x <;> simp
  refine ⟨hblocks2, ?_, ?_, ?_, ?_, ?_, ?_⟩
  · rw [hdefer']
    split
    · exact hstnd
    · rcases hx : lookupD st.defer pos with _ | x
      · simp only [List.map_cons, List.nodup_cons]
        exact ⟨(lookupD_eq_none_iff _ _).1 hx, hstnd⟩
      · rw [setD_map_fst]
        exact hstnd
  · intro q hq hqpos
    rw [hdefer']
    split
    · exact hdefer_far q hq
    · rcases lookupD st.defer pos with _ | x
      · rw [show lookupD ((pos, (⟨st.count, st.mask, now⟩ : DeferredBlock)) :: st.defer) q =
            lookupD st.defer q from if_neg (fun h => hqpos h.symm)]
        exact hdefer_far q hq
      · rw [lookupD_setD_ne _ _ hqpos]
        exact hdefer_far q hq
  · intro g
    have hne : offsetPos pos g ≠ pos := offsetPos_ne_self pos g
    rw [hdefer']
    split
    · exact hdefer_off g
    · rcases lookupD st.defer pos with _ | x
      · rw [show lookupD ((pos, (⟨st.count, st.mask, now⟩ : DeferredBlock)) :: st.defer)
            (offsetPos pos g) = lookupD st.defer (offsetPos pos g) from
            if_neg (fun h => hne h.symm)]
        exact hdefer_off g
      · rw [lookupD_setD_ne _ _ hne]
        exact hdefer_off g
  · rw [hdefer']
    split
    · rename_i h0
      rw [if_pos (by rw [← hcount]; exact h0), hdefer_pos]
    · rename_i h0
      rw [if_neg (by rw [← hcount]; exact h0)]
      have hmm : st.mask = m := funext hmask
      rcases hx : lookupD st.defer pos with _ | x
      · rw [show lookupD ((pos, (⟨st.count, st.mask, now⟩ : DeferredBlock)) :: st.defer) pos =
            some ⟨st.count, st.mask, now⟩ from if_pos rfl]
        rw [hdefer_pos] at hx
        rw [hx, hcount, hmm]
      · have hx' : lookupD s.blocks_defer pos = some x := by rw [← hdefer_pos]; exact hx
        rw [lookupD_setD_self, hx, hx', hcount, hmm]
        rfl
  · rw [hsent', occ_append, hsent_count_pos]
    split
    · rename_i h0
      rw [if_pos (by rw [← hcount]; exact h0)]
      simp [occ]
    · rename_i h0
      rw [if_neg (by rw [← hcount]; exact h0)]
      simp [occ]
  · intro g
    rw [hsent', occ_append]
    have hz : occ (offsetPos pos g) (if st.count = 0 then [pos] else []) = 0 := by
      split
      · exact occ_eq_zero_of_not_mem (by simp [offsetPos_ne_self pos g])
      · rfl
    rw [hz, Nat.add_zero]
    exact hsent_count_off g


theorem numFalse_pos_of_false :
    ∀ (m : Fin 6 → Bool) (f : Fin 6), m f = false → 1 ≤ numFalse m := by decide

theorem exists_false_of_numFalse_pos :
    ∀ m : Fin 6 → Bool, 1 ≤ numFalse m → ∃ f, m f = false := by decide

/-- Reducing `deferTransform` on a present record. -/
theorem deferTransform_some (f : Fin 6) (d : DeferredBlock) :
    deferTransform f (some d) =
      if d.mask (oppFace f) = false then
        if d.count - 1 = 0 then none
        else some ⟨d.count - 1, Function.update d.mask (oppFace f) true, d.time⟩
      else some d := rfl

/-- `add_block` preserves the readiness-tracker invariant. -/
theorem Inv_add_block (s : MapRender) (pos : Pos) (now : ℕ)
    (hInv : Inv s) (hp : posInRange pos) : Inv (add_block s pos now) := by
  obtain ⟨hblocks, hnodup, hfar, hoff, hpos, -, -⟩ := add_block_char s pos now hInv hp
  refine ⟨hnodup, ?_⟩
  intro e he
  rw [hblocks]
  have hlk : lookupD (add_block s pos now).blocks_defer e.1 = some e.2 :=
    mem_lookupD hnodup he
  by_cases hep : e.1 = pos
  · -- the record of the inserted chunk itself
    rw [hep] at hlk
    rw [hpos] at hlk
    split at hlk
    · rename_i hz
      exfalso
      obtain ⟨d, hd⟩ : ∃ d, lookupD s.blocks_defer pos = some d := by
        rcases h : lookupD s.blocks_defer pos with _ | d
        · rw [h] at hlk; exact absurd hlk (by simp)
        · exact ⟨d, rfl⟩
      have hmem := lookupD_mem hd
      obtain ⟨-, -, hmask, hcnt, hone⟩ := hInv.2 _ hmem
      obtain ⟨f, hf⟩ := exists_false_of_numFalse_pos d.mask (hcnt ▸ hone)
      have hnb : offsetPos pos f ∉ s.blocks := by
        intro hin
        rw [(hmask f).2 hin] at hf
        exact absurd hf (by simp)
      have hmf : presentMask s.blocks pos f = false := by
        unfold presentMask
        simpa using hnb
      have := numFalse_pos_of_false _ _ hmf
      omega
    · rename_i hz
      rw [Option.some.injEq] at hlk
      rw [hep, ← hlk]
      refine ⟨hp, List.mem_cons_self _ _, ?_, rfl, ?_⟩
      · intro f
        show presentMask s.blocks pos f = true ↔ offsetPos pos f ∈ pos :: s.blocks
        unfold presentMask
        rw [List.mem_cons]
        simp [offsetPos_ne_self pos f]
      · show 1 ≤ numFalse (presentMask s.blocks pos)
        omega
  · by_cases hex : ∃ g : Fin 6, e.1 = offsetPos pos g
    · -- a face neighbor of the inserted chunk
      obtain ⟨g, hg⟩ := hex
      rw [hg] at hlk
      rw [hoff g] at hlk
      rcases hold : lookupD s.blocks_defer (offsetPos pos g) with _ | d
      · rw [hold] at hlk
        exact absurd hlk (by simp [deferTransform])
      · rw [hold, deferTransform_some] at hlk
        have hmem := lookupD_mem hold
        obtain ⟨hrange, hinb, hmask, hcnt, hone⟩ := hInv.2 _ hmem
        have hcanc : offsetPos (offsetPos pos g) (oppFace g) = pos := offsetPos_cancel hp g
        -- a face of the neighbor's record pointing back at `pos` must be `oppFace g`
        have hback : ∀ f : Fin 6, offsetPos (offsetPos pos g) f = pos → f = oppFace g :=
          fun f hf => offsetPos_inj (hf.trans hcanc.symm)
        by_cases hmg : d.mask (oppFace g) = false
        · rw [if_pos hmg] at hlk
          by_cases hc0 : d.count - 1 = 0
          · rw [if_pos hc0] at hlk
            exact absurd hlk (by simp)
          · rw [if_neg hc0, Option.some.injEq] at hlk
            rw [hg, ← hlk]
            refine ⟨hrange, List.mem_cons_of_mem _ hinb, ?_, ?_, ?_⟩
            · intro f
              show Function.update d.mask (oppFace g) true f = true ↔
                offsetPos (offsetPos pos g) f ∈ pos :: s.blocks
              by_cases hfg : f = oppFace g
              · subst hfg
                rw [Function.update_same, hcanc, List.mem_cons]
                exact ⟨fun _ => Or.inl rfl, fun _ => rfl⟩
              · rw [Function.update_noteq hfg, List.mem_cons, hmask f]
                have hne2 : offsetPos (offsetPos pos g) f ≠ pos := fun h => hfg (hback f h)
                exact ⟨fun h => Or.inr h,
                  fun h => h.elim (fun h => absurd h hne2) id⟩
            · show d.count - 1 = numFalse (Function.update d.mask (oppFace g) true)
              have hcnt' : d.count = numFalse d.mask := hcnt
              have := numFalse_update d.mask (oppFace g) hmg
              omega
            · show 1 ≤ d.count - 1
              omega
        · rw [if_neg hmg, Option.some.injEq] at hlk
          have hmt : d.mask (oppFace g) = true := by
            rcases h : d.mask (oppFace g) with _ | _
            · exact absurd h hmg
            · rfl
          rw [hg, ← hlk]
          refine ⟨hrange, List.mem_cons_of_mem _ hinb, ?_, hcnt, hone⟩
          intro f
          rw [List.mem_cons, hmask f]
          have hne2 : offsetPos (offsetPos pos g) f = pos → f = oppFace g := hback f
          by_cases hfg : f = oppFace g
          · subst hfg
            have hpb : pos ∈ s.blocks := by
              have h2 := (hmask (oppFace g)).1 hmt
              rwa [hcanc] at h2
            rw [hcanc]
            exact ⟨fun _ => Or.inl rfl, fun _ => hpb⟩
          · exact ⟨fun h => Or.inr h,
              fun h => h.elim (fun h => absurd (hne2 h) hfg) id⟩
    · -- a chunk unrelated to the inserted one
      have hfar2 := hfar e.1 (fun f h => hex ⟨f, h⟩) hep
      rw [hfar2] at hlk
      have hmem := lookupD_mem hlk
      obtain ⟨hrange, hinb, hmask, hcnt, hone⟩ := hInv.2 _ hmem
      refine ⟨hrange, List.mem_cons_of_mem _ hinb, ?_, hcnt, hone⟩
      intro f
      rw [List.mem_cons, hmask f]
      have hne2 : offsetPos e.1 f ≠ pos := by
        intro h
        exact hex ⟨oppFace f, (offsetPos_symm hrange h).symm⟩
      exact ⟨fun h => Or.inr h, fun h => h.elim (fun h => absurd h hne2) id⟩

/-- The timeout scan of `update` preserves the readiness-tracker invariant. -/
theorem Inv_update (s : MapRender) (now : ℕ) (hInv : Inv s) : Inv (s.update now) := by
  refine ⟨?_, ?_⟩
  · exact List.Nodup.sublist
      (List.Sublist.map Prod.fst (List.filter_sublist _)) hInv.1
  · intro e he
    have he2 : e ∈ s.blocks_defer := List.mem_of_mem_filter he
    exact hInv.2 e he2

/-! #### Characterizing `update` -/

theorem occ_cons (p q : Pos) (l : List Pos) :
    occ p (q :: l) = occ p l + (if q = p then 1 else 0) := by
  rw [occ, occ, List.countP_cons]
  by_cases h : q = p <;> simp [h]

theorem lookupD_filter (l : DeferList) (pred : Pos × DeferredBlock → Bool) (p : Pos)
    (hn : (l.map Prod.fst).Nodup) :
    lookupD (l.filter pred) p =
      match lookupD l p with
      | some d => if pred (p, d) then some d else none
      | none => none := by
  induction l with
  | nil => rfl
  | cons e t ih =>
      simp only [List.map_cons, List.nodup_cons] at hn
      have hsub : ((t.filter pred).map Prod.fst).Sublist (t.map Prod.fst) :=
        List.Sublist.map Prod.fst (List.filter_sublist _)
      by_cases he : e.1 = p
      · have hpe : pred e = pred (p, e.2) := by
          obtain ⟨e1, e2⟩ := e
          cases he
          rfl
        rw [show lookupD (e :: t) p = some e.2 from if_pos he]
        have hnone : lookupD (t.filter pred) p = none := by
          rw [lookupD_eq_none_iff]
          intro hmem
          exact hn.1 (by rw [he]; exact hsub.mem hmem)
        rcases hpp : pred e with _ | _
        · rw [List.filter_cons_of_neg (by simp [hpp])]
          rw [hnone]
          have hppd : pred (p, e.2) = false := hpe ▸ hpp
          simp [hppd]
        · rw [List.filter_cons_of_pos (by simp [hpp])]
          rw [show lookupD (e :: t.filter pred) p = some e.2 from if_pos he]
          have hppd : pred (p, e.2) = true := hpe ▸ hpp
          simp [hppd]
      · have hlk : lookupD (e :: t) p = lookupD t p := if_neg he
        rw [hlk]
        rcases hpp : pred e with _ | _
        · rw [List.filter_cons_of_neg (by simp [hpp])]
          exact ih hn.2
        · rw [List.filter_cons_of_pos (by simp [hpp])]
          rw [show lookupD (e :: t.filter pred) p = lookupD (t.filter pred) p from if_neg he]
          exact ih hn.2

theorem occ_map_fst_filter (l : DeferList) (pred : Pos × DeferredBlock → Bool) (p : Pos)
    (hn : (l.map Prod.fst).Nodup) :
    occ p ((l.filter pred).map Prod.fst) =
      match lookupD l p with
      | some d => if pred (p, d) then 1 else 0
      | none => 0 := by
  induction l with
  | nil => rfl
  | cons e t ih =>
      simp only [List.map_cons, List.nodup_cons] at hn
      have hsub : ((t.filter pred).map Prod.fst).Sublist (t.map Prod.fst) :=
        List.Sublist.map Prod.fst (List.filter_sublist _)
      by_cases he : e.1 = p
      · have hpe : pred e = pred (p, e.2) := by
          obtain ⟨e1, e2⟩ := e
          cases he
          rfl
        have hocc0 : occ p ((t.filter pred).map Prod.fst) = 0 := by
          refine occ_eq_zero_of_not_mem ?_
          intro hmem
          exact hn.1 (by rw [he]; exact hsub.mem hmem)
        rw [show lookupD (e :: t) p = some e.2 from if_pos he]
        rcases hpp : pred e with _ | _
        · rw [List.filter_cons_of_neg (by simp [hpp])]
          rw [hocc0]
          have hppd : pred (p, e.2) = false := hpe ▸ hpp
          simp [hppd]
        · rw [List.filter_cons_of_pos (by simp [hpp])]
          rw [List.map_cons, occ_cons, hocc0, if_pos he]
          have hppd : pred (p, e.2) = true := hpe ▸ hpp
          simp [hppd]
      · have hlk : lookupD (e :: t) p = lookupD t p := if_neg he
        rw [hlk]
        rcases hpp : pred e with _ | _
        · rw [List.filter_cons_of_neg (by simp [hpp])]
          exact ih hn.2
        · rw [List.filter_cons_of_pos (by simp [hpp])]
          rw [List.map_cons, occ_cons, if_neg he, Nat.add_zero]
          exact ih hn.2

/-- Everything the claims need to know about one `update` call. -/
theorem update_char (s : MapRender) (now : ℕ)
    (hn : (s.blocks_defer.map Prod.fst).Nodup) :
    (s.update now).blocks = s.blocks ∧
    (∀ p : Pos, lookupD (s.update now).blocks_defer p =
      match lookupD s.blocks_defer p with
      | some d => if 100 < now - d.time then none else some d
      | none => none) ∧
    (∀ p : Pos, occ p (s.update now).sent = occ p s.sent +
      match lookupD s.blocks_defer p with
      | some d => if 100 < now - d.time then 1 else 0
      | none => 0) := by
  refine ⟨rfl, ?_, ?_⟩
  · intro p
    show lookupD (s.blocks_defer.filter fun e => !decide (100 < now - e.2.time)) p = _
    rw [lookupD_filter _ _ _ hn]
    rcases lookupD s.blocks_defer p with _ | d
    · rfl
    · by_cases h : 100 < now - d.time <;> simp [h]
  · intro p
    show occ p (s.sent ++
      (s.blocks_defer.filter fun e => decide (100 < now - e.2.time)).map Prod.fst) = _
    rw [occ_append, occ_map_fst_filter _ _ _ hn]
    rcases lookupD s.blocks_defer p with _ | d
    · rfl
    · by_cases h : 100 < now - d.time <;> simp [h]

/-- Under the invariant, a chunk that still has a deferred record is missing
    at least one face neighbor from the block store. -/
theorem numFalse_presentMask_pos_of_record {s : MapRender} (hInv : Inv s) {pos : Pos}
    {d : DeferredBlock} (hd : lookupD s.blocks_defer pos = some d) :
    1 ≤ numFalse (presentMask s.blocks pos) := by
  have hmem := lookupD_mem hd
  obtain ⟨-, -, hmask, hcnt, hone⟩ := hInv.2 _ hmem
  obtain ⟨f, hf⟩ := exists_false_of_numFalse_pos d.mask (hcnt ▸ hone)
  have hnb : offsetPos pos f ∉ s.blocks := by
    intro hin
    rw [(hmask f).2 hin] at hf
    exact absurd hf (by simp)
  have hmf : presentMask s.blocks pos f = false := by
    unfold presentMask
    simpa using hnb
  exact numFalse_pos_of_false _ _ hmf

/-! #### The deferral claims -/

/-- C2: on `add_block` of chunk C: with all 6 neighbors in the block store, C
    is sent to the mesh channel immediately and no deferred record for C
    exists afterward; with some neighbor missing, C is not sent and a record
    with count = number of missing neighbors (= number of false mask bits)
    exists; a later arrival of a missing neighbor decrements the count by
    exactly one, and C is dispatched exactly once at the moment the count
    reaches zero (record removed), never while the count is positive. -/
theorem add_block_dispatch (s : MapRender) (pos : Pos) (now : ℕ)
    (hInv : Inv s) (hp : posInRange pos) :
    ((∀ f : Fin 6, offsetPos pos f ∈ s.blocks) →
      occ pos (add_block s pos now).sent = occ pos s.sent + 1 ∧
      lookupD (add_block s pos now).blocks_defer pos = none) ∧
    (numFalse (presentMask s.blocks pos) ≠ 0 →
      occ pos (add_block s pos now).sent = occ pos s.sent ∧
      ∃ d : DeferredBlock,
        lookupD (add_block s pos now).blocks_defer pos = some d ∧
        d.count = numFalse (presentMask s.blocks pos) ∧
        numFalse d.mask = d.count ∧
        (∀ f : Fin 6, d.mask f = false ↔ offsetPos pos f ∉ s.blocks)) ∧
    (∀ (c : Pos) (dc : DeferredBlock) (g : Fin 6),
      posInRange c → lookupD s.blocks_defer c = some dc → pos = offsetPos c g →
      pos ∉ s.blocks →
      (dc.count ≠ 1 →
        lookupD (add_block s pos now).blocks_defer c =
          some ⟨dc.count - 1, Function.update dc.mask g true, dc.time⟩ ∧
        occ c (add_block s pos now).sent = occ c s.sent) ∧
      (dc.count = 1 →
        lookupD (add_block s pos now).blocks_defer c = none ∧
        occ c (add_block s pos now).sent = occ c s.sent + 1)) := by
  obtain ⟨hblocks, hnodup, hfar, hoff, hposC, hsp, hso⟩ := add_block_char s pos now hInv hp
  refine ⟨?_, ?_, ?_⟩
  · intro hall
    have hz : numFalse (presentMask s.blocks pos) = 0 := by
      rw [numFalse_eq_zero_iff]
      intro f
      unfold presentMask
      simp [hall f]
    constructor
    · rw [hsp, if_pos hz]
    · rw [hposC, if_pos hz]
      rcases hlo : lookupD s.blocks_defer pos with _ | d
      · rfl
      · exfalso
        have := numFalse_presentMask_pos_of_record hInv hlo
        omega
  · intro hz
    constructor
    · rw [hsp, if_neg hz, Nat.add_zero]
    · refine ⟨⟨numFalse (presentMask s.blocks pos), presentMask s.blocks pos,
        match lookupD s.blocks_defer pos with
        | some d => d.time
        | none => now⟩, ?_, rfl, rfl, ?_⟩
      · rw [hposC, if_neg hz]
      · intro f
        show presentMask s.blocks pos f = false ↔ offsetPos pos f ∉ s.blocks
        unfold presentMask
        simp
  · intro c dc g hc hdc hpg hnb
    have hcposc : offsetPos pos (oppFace g) = c := offsetPos_symm hc hpg.symm
    have hmaskg : dc.mask g = false := by
      obtain ⟨-, -, hmask, -, -⟩ := hInv.2 _ (lookupD_mem hdc)
      rcases h : dc.mask g with _ | _
      · rfl
      · exfalso
        have h2 := (hmask g).1 h
        rw [← hpg] at h2
        exact hnb h2
    have hone : 1 ≤ dc.count := by
      obtain ⟨-, -, -, -, hone⟩ := hInv.2 _ (lookupD_mem hdc)
      exact hone
    have hoffc := hoff (oppFace g)
    rw [hcposc, hdc, deferTransform_some, oppFace_oppFace, if_pos hmaskg] at hoffc
    have hsoc := hso (oppFace g)
    rw [hcposc] at hsoc
    have hstep : stepSends (pos :: s.blocks) s.blocks_defer c (oppFace g) =
        decide (dc.count - 1 = 0) := by
      unfold stepSends
      rw [hdc]
      rw [show oppFace (oppFace g) = g from oppFace_oppFace g]
      simp [hmaskg]
    constructor
    · intro hcnt1
      have hcne : ¬ (dc.count - 1 = 0) := by omega
      refine ⟨?_, ?_⟩
      · rw [hoffc, if_neg hcne]
      · rw [hsoc, hstep]
        simp [hcne]
    · intro hcnt1
      refine ⟨?_, ?_⟩
      · rw [hoffc, if_pos (by omega)]
      · rw [hsoc, hstep, hcnt1]
        simp

/-- A block store holding exactly the six face neighbors of the origin. -/
def sAllNbors : MapRender :=
  ⟨[((0 : ℤ), (1 : ℤ), (0 : ℤ)), (0, -1, 0), (1, 0, 0), (-1, 0, 0), (0, 0, 1), (0, 0, -1)],
    [], []⟩

theorem add_block_dispatch_witness :
    Inv sAllNbors ∧ posInRange (((0 : ℤ), (0 : ℤ), (0 : ℤ)) : Pos) ∧
    (occ (0, 0, 0) (add_block sAllNbors (0, 0, 0) 5).sent =
        occ (0, 0, 0) sAllNbors.sent + 1 ∧
      lookupD (add_block sAllNbors (0, 0, 0) 5).blocks_defer (0, 0, 0) = none) :=
  ⟨by decide, by decide,
    (add_block_dispatch sAllNbors (0, 0, 0) 5 (by decide) (by decide)).1 (by decide)⟩

/-- C3: a deferred record is never drained by `update` at or before 100 ms of
    age; on an `update` whose instant puts its age strictly over 100 ms it is
    sent exactly once and the record removed, so later `update`s (its record
    being gone) never send it again. -/
theorem update_timeout_dispatch (s : MapRender) (now : ℕ) (pos : Pos) (d : DeferredBlock)
    (hInv : Inv s) (hd : lookupD s.blocks_defer pos = some d) :
    (now - d.time ≤ 100 →
      lookupD (s.update now).blocks_defer pos = some d ∧
      occ pos (s.update now).sent = occ pos s.sent) ∧
    (100 < now - d.time →
      lookupD (s.update now).blocks_defer pos = none ∧
      occ pos (s.update now).sent = occ pos s.sent + 1) ∧
    (∀ q : Pos, lookupD s.blocks_defer q = none →
      occ q (s.update now).sent = occ q s.sent) := by
  obtain ⟨-, hlk, hocc⟩ := update_char s now hInv.1
  refine ⟨?_, ?_, ?_⟩
  · intro hle
    have hnot : ¬ 100 < now - d.time := by omega
    constructor
    · rw [hlk pos, hd]
      simp [hnot]
    · rw [hocc pos, hd]
      simp [hnot]
  · intro hgt
    constructor
    · rw [hlk pos, hd]
      simp [hgt]
    · rw [hocc pos, hd]
      simp [hgt]
  · intro q hq
    rw [hocc q, hq]
    rfl

/-- A store with the origin present and deferred (all six neighbors missing),
    deferred since instant 0. -/
def sOneDefer : MapRender :=
  ⟨[((0 : ℤ), (0 : ℤ), (0 : ℤ))], [(((0 : ℤ), (0 : ℤ), (0 : ℤ)), ⟨6, fun _ => false, 0⟩)], []⟩

theorem update_timeout_dispatch_witness :
    Inv sOneDefer ∧
    lookupD sOneDefer.blocks_defer (0, 0, 0) = some ⟨6, fun _ => false, 0⟩ ∧
    (lookupD (sOneDefer.update 150).blocks_defer (0, 0, 0) = none ∧
      occ (0, 0, 0) (sOneDefer.update 150).sent = occ (0, 0, 0) sOneDefer.sent + 1) :=
  ⟨by decide, by decide,
    (update_timeout_dispatch sOneDefer 150 (0, 0, 0) ⟨6, fun _ => false, 0⟩
      (by decide) (by decide)).2.1 (by decide)⟩

/-- C8 (amended): when the inserted chunk still has a missing neighbor and a
    deferred record already exists, the record is updated with the newly
    computed mask and count, but its stored timestamp stays the original
    record's creation time — it is not refreshed to the current instant. -/
theorem add_block_redeliver_keeps_time (s : MapRender) (pos : Pos) (now : ℕ)
    (d : DeferredBlock) (hInv : Inv s) (hp : posInRange pos)
    (hd : lookupD s.blocks_defer pos = some d) :
    lookupD (add_block s pos now).blocks_defer pos =
      some ⟨numFalse (presentMask s.blocks pos), presentMask s.blocks pos, d.time⟩ := by
  obtain ⟨-, -, -, -, hposC, -, -⟩ := add_block_char s pos now hInv hp
  have h1 := numFalse_presentMask_pos_of_record hInv hd
  rw [hposC, if_neg (by omega), hd]

/-- A store with the origin present and deferred since instant 7. -/
def sRedeliver : MapRender :=
  ⟨[((0 : ℤ), (0 : ℤ), (0 : ℤ))], [(((0 : ℤ), (0 : ℤ), (0 : ℤ)), ⟨6, fun _ => false, 7⟩)], []⟩

/-- C8 counterexample: re-delivering the origin at instant 50 leaves the
    deferred record's timestamp at its original creation instant 7 — the
    claim's "refreshed to the time of this insertion" (50) is false. -/
theorem add_block_refresh_counterexample :
    ((lookupD (add_block sRedeliver (0, 0, 0) 50).blocks_defer (0, 0, 0)).map
      DeferredBlock.time) = some 7 ∧ (7 : ℕ) ≠ 50 := by decide

theorem add_block_redeliver_keeps_time_witness :
    Inv sRedeliver ∧
    lookupD (add_block sRedeliver (0, 0, 0) 50).blocks_defer (0, 0, 0) =
      some ⟨numFalse (presentMask sRedeliver.blocks (0, 0, 0)),
        presentMask sRedeliver.blocks (0, 0, 0), 7⟩ :=
  ⟨by decide,
    add_block_redeliver_keeps_time sRedeliver (0, 0, 0) 50 ⟨6, fun _ => false, 7⟩
      (by decide) (by decide) (by decide)⟩

/-- C10: in every invariant state, each deferred record's count equals the
    number of false mask bits and lies in 1..6 (so the guarded u8 decrement
    cannot underflow and no record with count 0 is stored), and the invariant
    is preserved by `add_block` and by `update`. -/
theorem deferred_block_count_invariant (s : MapRender) (pos : Pos) (now : ℕ)
    (hInv : Inv s) (hp : posInRange pos) :
    (∀ e ∈ s.blocks_defer,
      e.2.count = numFalse e.2.mask ∧ 1 ≤ e.2.count ∧ e.2.count ≤ 6) ∧
    Inv (add_block s pos now) ∧ Inv (s.update now) := by
  refine ⟨?_, Inv_add_block s pos now hInv hp, Inv_update s now hInv⟩
  intro e he
  obtain ⟨-, -, -, hcnt, hone⟩ := hInv.2 e he
  exact ⟨hcnt, hone, hcnt ▸ numFalse_le_six _⟩

theorem deferred_block_count_invariant_witness :
    Inv sOneDefer ∧ posInRange (((5 : ℤ), (5 : ℤ), (5 : ℤ)) : Pos) ∧
    (∀ e ∈ sOneDefer.blocks_defer,
      e.2.count = numFalse e.2.mask ∧ 1 ≤ e.2.count ∧ e.2.count ≤ 6) :=
  ⟨by decide, by decide,
    (deferred_block_count_invariant sOneDefer (5, 5, 5) 0 (by decide) (by decide)).1⟩

/-! ### The meshing algorithm (src/gfx/map/mesh.rs)

Numeric vertex payload (positions, texture coordinates, light) is modelled
with rationals; all values the cube path computes are exact in `f32`. The
`Plant` path multiplies by the `f32` cosine/sine of 45° and 135° obtained
from `cgmath`; those two constant pairs (dyadic rationals in the binary) are
passed in as the parameter `trig`, which no claim constrains. -/

/-- `mt_net::DrawType`, restricted to the variants the meshing code matches
    on (every other variant takes the same default path as `AllFaces`). -/
inductive DrawType where
  | None
  | Cube
  | AllFaces
  | AllFacesOpt
  | Liquid
  | GlassLike
  | Plant
  deriving DecidableEq

/-- `mt_net::Param1Type`, restricted to what the meshing code matches on. -/
inductive Param1Type where
  | None
  | Light
  deriving DecidableEq

/-- `mt_net::Alpha`. -/
inductive Alpha where
  | Blend
  | Clip
  | Opaque
  deriving DecidableEq

/-- `LeavesMode` from src/gfx/map.rs. -/
inductive LeavesMode where
  | Opaque
  | Simple
  | Fancy
  deriving DecidableEq

/-- `MapRenderSettings` from src/gfx/map.rs. -/
structure MapRenderSettings where
  leaves : LeavesMode
  opaque_liquids : Bool
  deriving DecidableEq

/-- One tile of a node definition: its texture name, the atlas slot index
    stored into `texture.custom` by the atlas builder, and the
    `TileFlag::BackfaceCull` flag. -/
structure TileDef where
  texture_name : String
  texture_custom : ℕ
  backface_cull : Bool
  deriving DecidableEq

/-- `mt_net::NodeDef`, the fields the meshing and atlas code read. -/
structure NodeDef where
  draw_type : DrawType
  tiles : Fin 6 → TileDef
  special_tiles : Fin 6 → TileDef
  overlay_tiles : Fin 6 → TileDef
  param1_type : Param1Type
  alpha : Alpha
  deriving DecidableEq

/-- `mt_net::MapBlock`: 4096 content IDs plus 4096 param-1 (light) bytes. -/
structure MapBlock where
  param_0 : Fin 4096 → ℕ
  param_1 : Fin 4096 → ℕ
  deriving DecidableEq

/-- `AtlasSlice` from src/gfx/map.rs: per face, per template vertex, a UV
    coordinate pair. -/
structure AtlasSlice where
  cube_tex_coords : Fin 6 → Fin 6 → ℚ × ℚ
  deriving DecidableEq

/-- `MeshgenInfo` from src/gfx/map.rs: the atlas slices and the node
    definition table indexed by content ID. -/
structure MeshgenInfo where
  textures : ℕ → AtlasSlice
  nodes : ℕ → Option NodeDef

/-- A vertex as pushed by the meshing code: position, texture coordinates
    and light. -/
structure Vertex where
  pos : Fin 3 → ℚ
  tex_coords : ℚ × ℚ
  light : ℚ
  deriving DecidableEq

/-- The `CUBE` template from src/gfx/map.rs: per face, 6 vertices of
    (position offset, texture coordinate). -/
def CUBE : Fin 6 → Fin 6 → (Fin 3 → ℚ) × (ℚ × ℚ) :=
  fun f v =>
    match f, v with
    | 0, 0 => (![-1/2, 1/2, -1/2], (0, 1))
    | 0, 1 => (![1/2, 1/2, 1/2], (1, 0))
    | 0, 2 => (![1/2, 1/2, -1/2], (1, 1))
    | 0, 3 => (![1/2, 1/2, 1/2], (1, 0))
    | 0, 4 => (![-1/2, 1/2, -1/2], (0, 1))
    | 0, 5 => (![-1/2, 1/2, 1/2], (0, 0))
    | 1, 0 => (![-1/2, -1/2, -1/2], (0, 1))
    | 1, 1 => (![1/2, -1/2, -1/2], (1, 1))
    | 1, 2 => (![1/2, -1/2, 1/2], (1, 0))
    | 1, 3 => (![1/2, -1/2, 1/2], (1, 0))
    | 1, 4 => (![-1/2, -1/2, 1/2], (0, 0))
    | 1, 5 => (![-1/2, -1/2, -1/2], (0, 1))
    | 2, 0 => (![1/2, 1/2, 1/2], (1, 1))
    | 2, 1 => (![1/2, -1/2, -1/2], (0, 0))
    | 2, 2 => (![1/2, 1/2, -1/2], (0, 1))
    | 2, 3 => (![1/2, -1/2, -1/2], (0, 0))
    | 2, 4 => (![1/2, 1/2, 1/2], (1, 1))
    | 2, 5 => (![1/2, -1/2, 1/2], (1, 0))
    | 3, 0 => (![-1/2, 1/2, 1/2], (1, 1))
    | 3, 1 => (![-1/2, 1/2, -1/2], (0, 1))
    | 3, 2 => (![-1/2, -1/2, -1/2], (0, 0))
    | 3, 3 => (![-1/2, -1/2, -1/2], (0, 0))
    | 3, 4 => (![-1/2, -1/2, 1/2], (1, 0))
    | 3, 5 => (![-1/2, 1/2, 1/2], (1, 1))
    | 4, 0 => (![-1/2, -1/2, 1/2], (0, 0))
    | 4, 1 => (![1/2, -1/2, 1/2], (1, 0))
    | 4, 2 => (![1/2, 1/2, 1/2], (1, 1))
    | 4, 3 => (![1/2, 1/2, 1/2], (1, 1))
    | 4, 4 => (![-1/2, 1/2, 1/2], (0, 1))
    | 4, 5 => (![-1/2, -1/2, 1/2], (0, 0))
    | 5, 0 => (![-1/2, -1/2, -1/2], (0, 0))
    | 5, 1 => (![1/2, 1/2, -1/2], (1, 1))
    | 5, 2 => (![1/2, -1/2, -1/2], (1, 0))
    | 5, 3 => (![1/2, 1/2, -1/2], (1, 1))
    | 5, 4 => (![-1/2, -1/2, -1/2], (0, 0))
    | 5, 5 => (![-1/2, 1/2, -1/2], (0, 1))

/-- `let c = [1, 1, 0, 0, 2, 2][f]` from create_mesh: which coordinate axis a
    face direction moves along. -/
def faceAxis : Fin 6 → Fin 3
  | 0 => 1
  | 1 => 1
  | 2 => 0
  | 3 => 0
  | 4 => 2
  | 5 => 2

/-- `let pos: [i16; 3] = array(|i| ((index >> (4 * i)) & 0xf) as i16)`. -/
def voxelPos (index : Fin 4096) : Fin 3 → ℤ :=
  fun i => (((index.val >>> (4 * i.val)) &&& 0xf : ℕ) : ℤ)

/-- `npos[0] | (npos[1] << 4) | (npos[2] << 8)`; for coordinates in `[0, 16)`
    (the only ones the code produces) the `% 4096` is the identity and only
    makes the index total. -/
def voxelIndex (np : Fin 3 → ℤ) : Fin 4096 :=
  ⟨((np 0).toNat ||| ((np 1).toNat <<< 4) ||| ((np 2).toNat <<< 8)) % 4096,
    Nat.mod_lt _ (by norm_num)⟩

/-- The draw-type/tile-set resolution at the top of the per-voxel loop:
    `AllFacesOpt` resolves according to the leaves setting (the `Simple` mode
    switching to the special tile set), `None` is handled by the caller, and
    every other draw type keeps the node's regular tiles. -/
def resolveDraw (settings : MapRenderSettings) (nd : NodeDef) :
    DrawType × (Fin 6 → TileDef) :=
  match nd.draw_type with
  | DrawType.AllFacesOpt =>
      match settings.leaves with
      | LeavesMode.Opaque => (DrawType.Cube, nd.tiles)
      | LeavesMode.Simple => (DrawType.GlassLike, nd.special_tiles)
      | LeavesMode.Fancy => (DrawType.AllFaces, nd.tiles)
  | dt => (dt, nd.tiles)

/-- The neighbor-voxel fetch of create_mesh (mesh.rs lines 110-124): step one
    voxel along the face axis; inside the chunk read the same block, outside
    read the face's neighbor chunk at the wrapped coordinate, and return
    `none` (skip the face) if that chunk is absent. -/
def neighborContent (block : MapBlock) (nbors : Fin 6 → Option MapBlock)
    (pos : Fin 3 → ℤ) (f : Fin 6) : Option ℕ :=
  let c := faceAxis f
  let npc := pos c + FACE_DIR f c
  if 0 ≤ npc ∧ npc < 16 then
    some (block.param_0 (voxelIndex (Function.update pos c npc)))
  else
    match nbors f with
    | none => none
    | some nblk => some (nblk.param_0 (voxelIndex (Function.update pos c ((npc + 16) % 16))))

/-- The face-culling test of create_mesh (mesh.rs lines 126-136): a `Cube`
    face is culled when the neighbor is a `Cube`; a `Liquid` face when the
    neighbor is a `Cube` or has the same content ID; unknown neighbor content
    (no node definition) never culls. -/
def faceCulled (mkinfo : MeshgenInfo) (draw_type : DrawType) (content ncontent : ℕ) : Bool :=
  match mkinfo.nodes ncontent with
  | some ndef =>
      match draw_type with
      | DrawType.Cube => decide (ndef.draw_type = DrawType.Cube)
      | DrawType.Liquid => decide (ndef.draw_type = DrawType.Cube) || decide (ncontent = content)
      | _ => false
  | none => false

/-- The six (or, without backface culling, twelve) vertices pushed for one
    emitted face (mesh.rs lines 139-153). -/
def faceVertexList (mkinfo : MeshgenInfo) (tiles : Fin 6 → TileDef)
    (pos : Fin 3 → ℤ) (light : ℚ) (f : Fin 6) : List Vertex :=
  let tile := tiles f
  let texture := (mkinfo.textures tile.texture_custom).cube_tex_coords f
  let verts := (List.finRange 6).map fun v =>
    ({ pos := fun i => (pos i : ℚ) + (CUBE f v).1 i,
       tex_coords := texture v,
       light := light } : Vertex)
  verts ++ (if tile.backface_cull then [] else verts.reverse)

/-- What one face direction of a voxel contributes to the mesh: for `Cube`
    and `Liquid` draw types the face is dropped when the neighbor chunk is
    absent or the culling test fires; every other draw type emits each face
    unconditionally (mesh.rs lines 106-154). -/
def cubeFaceVertices (mkinfo : MeshgenInfo) (block : MapBlock)
    (nbors : Fin 6 → Option MapBlock) (content : ℕ) (draw_type : DrawType)
    (tiles : Fin 6 → TileDef) (light : ℚ) (index : Fin 4096) (f : Fin 6) : List Vertex :=
  if draw_type = DrawType.Cube ∨ draw_type = DrawType.Liquid then
    match neighborContent block nbors (voxelPos index) f with
    | none => []
    | some ncontent =>
        if faceCulled mkinfo draw_type content ncontent then []
        else faceVertexList mkinfo tiles (voxelPos index) light f
  else faceVertexList mkinfo tiles (voxelPos index) light f

/-- `Matrix3::from_angle_y(θ)` applied to a vector, for `cs = (cos θ, sin θ)`. -/
def rotYApply (cs : ℚ × ℚ) (v : Fin 3 → ℚ) : Fin 3 → ℚ
  | 0 => cs.1 * v 0 + cs.2 * v 2
  | 1 => v 1
  | 2 => -cs.2 * v 0 + cs.1 * v 2

/-- The `Plant` path (mesh.rs lines 73-104): two crossed quads built from the
    face-2 template shifted by (-0.5, 0, 0) and rotated about the vertical
    axis; `trig 0`/`trig 1` are the `f32` (cos, sin) pairs of 45° and 135°. -/
def plantVertices (trig : Fin 2 → ℚ × ℚ) (mkinfo : MeshgenInfo)
    (tiles : Fin 6 → TileDef) (pos : Fin 3 → ℤ) (light : ℚ) : List Vertex :=
  let f : Fin 6 := 2
  let tile := tiles f
  let texture := (mkinfo.textures tile.texture_custom).cube_tex_coords f
  let addVertices : ℚ × ℚ → List Vertex := fun cs =>
    let verts := (List.finRange 6).map fun v =>
      ({ pos := fun i => (pos i : ℚ) +
            rotYApply cs (fun j => (CUBE f v).1 j - (if j = 0 then 1/2 else 0)) i,
         tex_coords := texture v,
         light := light } : Vertex)
    verts ++ (if tile.backface_cull then [] else verts.reverse)
  addVertices (trig 0) ++ addVertices (trig 1)

/-- One voxel's contribution in create_mesh's main loop: its vertex list and
    whether it goes to the blended partition (mesh.rs lines 32-155). -/
def voxelMesh (mkinfo : MeshgenInfo) (settings : MapRenderSettings)
    (trig : Fin 2 → ℚ × ℚ) (block : MapBlock) (nbors : Fin 6 → Option MapBlock)
    (index : Fin 4096) : List Vertex × Bool :=
  let content := block.param_0 index
  match mkinfo.nodes content with
  | none => ([], false)
  | some nd =>
      if nd.draw_type = DrawType.None then ([], false)
      else
        let r := resolveDraw settings nd
        let light : ℚ :=
          match nd.param1_type with
          | Param1Type.Light => (block.param_1 index : ℚ) / 15
          | _ => 1
        let verts :=
          if r.1 = DrawType.Plant then
            plantVertices trig mkinfo r.2 (voxelPos index) light
          else
            ((List.finRange 6).map fun f =>
              cubeFaceVertices mkinfo block nbors content r.1 r.2 light index f).flatten
        (verts, decide (nd.alpha = Alpha.Blend))

/-- `MeshData` from mesh.rs: the opaque and blended vertex lists. -/
structure MeshData where
  vertices : List Vertex
  vertices_blend : List Vertex
  deriving DecidableEq

/-- `create_mesh` (mesh.rs lines 24-157): fold every voxel's contribution
    into the destination list chosen by the node's alpha mode. -/
def create_mesh (mkinfo : MeshgenInfo) (settings : MapRenderSettings)
    (trig : Fin 2 → ℚ × ℚ) (block : MapBlock) (nbors : Fin 6 → Option MapBlock) :
    MeshData :=
  (List.finRange 4096).foldl
    (fun buf index =>
      let r := voxelMesh mkinfo settings trig block nbors index
      if r.2 then { buf with vertices_blend := buf.vertices_blend ++ r.1 }
      else { buf with vertices := buf.vertices ++ r.1 })
    ⟨[], []⟩

theorem faceVertexList_ne_nil (mkinfo : MeshgenInfo) (tiles : Fin 6 → TileDef)
    (pos : Fin 3 → ℤ) (light : ℚ) (f : Fin 6) :
    faceVertexList mkinfo tiles pos light f ≠ [] := by
  unfold faceVertexList
  intro h
  rw [List.append_eq_nil] at h
  have := congrArg List.length h.1
  simp at this

/-- Only a raw `Liquid` draw type resolves to `Liquid`. -/
theorem resolveDraw_liquid (settings : MapRenderSettings) (nd : NodeDef)
    (h : (resolveDraw settings nd).1 = DrawType.Liquid) :
    nd.draw_type = DrawType.Liquid := by
  unfold resolveDraw at h
  rcases hdt : nd.draw_type <;> rw [hdt] at h <;> first
    | rfl
    | (exact absurd h (by rcases settings.leaves <;> simp))
    | (exact absurd h (by simp))

/-! #### The face-culling claims -/

/-- C4: a voxel whose resolved draw type is `Cube` emits no vertices for a
    face whose neighbor voxel (in the same chunk or a present neighbor chunk)
    has a node definition with draw type `Cube`; applying this to both sides
    of a shared face between two adjacent cube voxels, that face contributes
    zero vertices to both chunks' meshes. -/
theorem cube_cube_face_not_emitted (mkinfo : MeshgenInfo) (settings : MapRenderSettings)
    (block : MapBlock) (nbors : Fin 6 → Option MapBlock) (index : Fin 4096) (f : Fin 6)
    (nd ndef : NodeDef) (ncontent : ℕ) (light : ℚ)
    (hnd : mkinfo.nodes (block.param_0 index) = some nd)
    (hres : (resolveDraw settings nd).1 = DrawType.Cube)
    (hnc : neighborContent block nbors (voxelPos index) f = some ncontent)
    (hndef : mkinfo.nodes ncontent = some ndef)
    (hcube : ndef.draw_type = DrawType.Cube) :
    cubeFaceVertices mkinfo block nbors (block.param_0 index) (resolveDraw settings nd).1
      (resolveDraw settings nd).2 light index f = [] := by
  rw [hres]
  unfold cubeFaceVertices
  rw [if_pos (Or.inl rfl), hnc]
  have hcul : faceCulled mkinfo DrawType.Cube (block.param_0 index) ncontent = true := by
    unfold faceCulled
    rw [hndef]
    simp [hcube]
  dsimp only
  rw [if_pos hcul]

/-- A tile with backface culling set, texture slot 0. -/
def t0 : TileDef := ⟨"t", 0, true⟩

/-- A full-cube stone-like node. -/
def cubeNode : NodeDef :=
  ⟨DrawType.Cube, fun _ => t0, fun _ => t0, fun _ => t0, Param1Type.None, Alpha.Opaque⟩

/-- A liquid node with blended alpha. -/
def liquidNode : NodeDef :=
  ⟨DrawType.Liquid, fun _ => t0, fun _ => t0, fun _ => t0, Param1Type.None, Alpha.Blend⟩

/-- An air node: draw type `None`. -/
def airNode : NodeDef :=
  ⟨DrawType.None, fun _ => t0, fun _ => t0, fun _ => t0, Param1Type.None, Alpha.Opaque⟩

/-- A node table mapping content 1 to cube, 2 to liquid, 3 to air. -/
def mk0 : MeshgenInfo :=
  ⟨fun _ => ⟨fun _ _ => (0, 0)⟩,
   fun c =>
     if c = 1 then some cubeNode
     else if c = 2 then some liquidNode
     else if c = 3 then some airNode
     else none⟩

/-- The default render settings (`LeavesMode::Fancy`, blended liquids). -/
def settings0 : MapRenderSettings := ⟨LeavesMode.Fancy, false⟩

/-- A chunk whose voxel (15, 0, 0) is a cube, the rest unknown content. -/
def blockA : MapBlock := ⟨fun i => if i.val = 15 then 1 else 0, fun _ => 0⟩

/-- A chunk whose voxel (0, 0, 0) is a cube, the rest unknown content. -/
def blockB : MapBlock := ⟨fun i => if i.val = 0 then 1 else 0, fun _ => 0⟩

/-- `blockA`'s +x neighbor is `blockB`, everything else missing. -/
def nborsA : Fin 6 → Option MapBlock := fun f => if f = 2 then some blockB else none

/-- `blockB`'s -x neighbor is `blockA`, everything else missing. -/
def nborsB : Fin 6 → Option MapBlock := fun f => if f = 3 then some blockA else none

theorem cube_cube_face_not_emitted_witness :
    cubeFaceVertices mk0 blockA nborsA (blockA.param_0 15) (resolveDraw settings0 cubeNode).1
      (resolveDraw settings0 cubeNode).2 1 15 2 = [] ∧
    cubeFaceVertices mk0 blockB nborsB (blockB.param_0 0) (resolveDraw settings0 cubeNode).1
      (resolveDraw settings0 cubeNode).2 1 0 3 = [] :=
  ⟨cube_cube_face_not_emitted mk0 settings0 blockA nborsA 15 2 cubeNode cubeNode 1 1
      (by decide) (by decide) (by decide) (by decide) (by decide),
    cube_cube_face_not_emitted mk0 settings0 blockB nborsB 0 3 cubeNode cubeNode 1 1
      (by decide) (by decide) (by decide) (by decide) (by decide)⟩

/-- C5: a voxel whose resolved draw type is `Liquid` emits no vertices for a
    face whose neighbor voxel has the same content ID or is a `Cube`, and
    does emit the face's vertices when the neighbor voxel's content maps to a
    node definition with draw type `None` (air). -/
theorem liquid_face_emission (mkinfo : MeshgenInfo) (settings : MapRenderSettings)
    (block : MapBlock) (nbors : Fin 6 → Option MapBlock) (index : Fin 4096) (f : Fin 6)
    (nd : NodeDef) (ncontent : ℕ) (light : ℚ)
    (hnd : mkinfo.nodes (block.param_0 index) = some nd)
    (hres : (resolveDraw settings nd).1 = DrawType.Liquid)
    (hnc : neighborContent block nbors (voxelPos index) f = some ncontent) :
    ((ncontent = block.param_0 index ∨
        (∃ ndef, mkinfo.nodes ncontent = some ndef ∧ ndef.draw_type = DrawType.Cube)) →
      cubeFaceVertices mkinfo block nbors (block.param_0 index) (resolveDraw settings nd).1
        (resolveDraw settings nd).2 light index f = []) ∧
    (∀ ndef, mkinfo.nodes ncontent = some ndef → ndef.draw_type = DrawType.None →
      cubeFaceVertices mkinfo block nbors (block.param_0 index) (resolveDraw settings nd).1
        (resolveDraw settings nd).2 light index f =
        faceVertexList mkinfo (resolveDraw settings nd).2 (voxelPos index) light f ∧
      cubeFaceVertices mkinfo block nbors (block.param_0 index) (resolveDraw settings nd).1
        (resolveDraw settings nd).2 light index f ≠ []) := by
  rw [hres]
  constructor
  · intro hcul
    unfold cubeFaceVertices
    rw [if_pos (Or.inr rfl), hnc]
    have h : faceCulled mkinfo DrawType.Liquid (block.param_0 index) ncontent = true := by
      rcases hcul with h | ⟨ndef, hndef, hcube⟩
      · rw [h]
        unfold faceCulled
        rw [hnd]
        simp
      · unfold faceCulled
        rw [hndef]
        simp [hcube]
    dsimp only
    rw [if_pos h]
  · intro ndef hndef hair
    have hne : ncontent ≠ block.param_0 index := by
      intro he
      rw [he, hnd] at hndef
      rw [Option.some.injEq] at hndef
      have := resolveDraw_liquid settings nd hres
      rw [← hndef] at hair
      rw [hair] at this
      exact absurd this (by simp)
    have h : faceCulled mkinfo DrawType.Liquid (block.param_0 index) ncontent = false := by
      unfold faceCulled
      rw [hndef]
      simp [hair, hne]
    refine ⟨?_, ?_⟩
    · unfold cubeFaceVertices
      rw [if_pos (Or.inr rfl), hnc]
      dsimp only
      rw [if_neg (by rw [h]; simp)]
    · unfold cubeFaceVertices
      rw [if_pos (Or.inr rfl), hnc]
      dsimp only
      rw [if_neg (by rw [h]; simp)]
      exact faceVertexList_ne_nil _ _ _ _ _

/-- A chunk with liquid at (0,0,0) and (1,0,0), the rest unknown content. -/
def blockL1 : MapBlock :=
  ⟨fun i => if i.val = 0 then 2 else if i.val = 1 then 2 else 0, fun _ => 0⟩

/-- A chunk with liquid at (0,0,0) and air at (1,0,0). -/
def blockL2 : MapBlock :=
  ⟨fun i => if i.val = 0 then 2 else if i.val = 1 then 3 else 0, fun _ => 0⟩

theorem liquid_face_emission_witness :
    cubeFaceVertices mk0 blockL1 (fun _ => none) (blockL1.param_0 0)
      (resolveDraw settings0 liquidNode).1 (resolveDraw settings0 liquidNode).2 1 0 2 = [] ∧
    cubeFaceVertices mk0 blockL2 (fun _ => none) (blockL2.param_0 0)
      (resolveDraw settings0 liquidNode).1 (resolveDraw settings0 liquidNode).2 1 0 2 ≠ [] :=
  ⟨(liquid_face_emission mk0 settings0 blockL1 (fun _ => none) 0 2 liquidNode 2 1
      (by decide) (by decide) (by decide)).1 (Or.inl (by decide)),
    ((liquid_face_emission mk0 settings0 blockL2 (fun _ => none) 0 2 liquidNode 3 1
      (by decide) (by decide) (by decide)).2 airNode (by decide) (by decide)).2⟩

/-- C6: for a `Cube` or `Liquid` voxel whose face-`f` neighbor voxel lies
    outside the chunk, an absent neighbor chunk means the face emits no
    vertices, and with the neighbor chunk present the face is emitted exactly
    when the culling test on the neighbor voxel fetched at the wrapped
    coordinate does not fire. -/
theorem boundary_face_requires_neighbor (mkinfo : MeshgenInfo) (block : MapBlock)
    (nbors : Fin 6 → Option MapBlock) (content : ℕ) (draw_type : DrawType)
    (tiles : Fin 6 → TileDef) (light : ℚ) (index : Fin 4096) (f : Fin 6)
    (hdt : draw_type = DrawType.Cube ∨ draw_type = DrawType.Liquid)
    (hout : ¬(0 ≤ voxelPos index (faceAxis f) + FACE_DIR f (faceAxis f) ∧
      voxelPos index (faceAxis f) + FACE_DIR f (faceAxis f) < 16)) :
    (nbors f = none →
      cubeFaceVertices mkinfo block nbors content draw_type tiles light index f = []) ∧
    (∀ nblk, nbors f = some nblk →
      (cubeFaceVertices mkinfo block nbors content draw_type tiles light index f = [] ↔
        faceCulled mkinfo draw_type content
          (nblk.param_0 (voxelIndex (Function.update (voxelPos index) (faceAxis f)
            ((voxelPos index (faceAxis f) + FACE_DIR f (faceAxis f) + 16) % 16)))) = true)) := by
  have hncs : ∀ nblk, nbors f = some nblk →
      neighborContent block nbors (voxelPos index) f =
        some (nblk.param_0 (voxelIndex (Function.update (voxelPos index) (faceAxis f)
          ((voxelPos index (faceAxis f) + FACE_DIR f (faceAxis f) + 16) % 16)))) := by
    intro nblk ho
    simp only [neighborContent]
    rw [if_neg hout, ho]
  have hncn : nbors f = none → neighborContent block nbors (voxelPos index) f = none := by
    intro ho
    simp only [neighborContent]
    rw [if_neg hout, ho]
  constructor
  · intro hnone
    unfold cubeFaceVertices
    rw [if_pos hdt, hncn hnone]
  · intro nblk hsome
    unfold cubeFaceVertices
    rw [if_pos hdt, hncs nblk hsome]
    dsimp only
    rcases hcul : faceCulled mkinfo draw_type content
        (nblk.param_0 (voxelIndex (Function.update (voxelPos index) (faceAxis f)
          ((voxelPos index (faceAxis f) + FACE_DIR f (faceAxis f) + 16) % 16)))) with _ | _
    · simp [hcul, faceVertexList_ne_nil]
    · simp [hcul]

theorem boundary_face_requires_neighbor_witness :
    cubeFaceVertices mk0 blockA (fun _ => none) (blockA.param_0 15) DrawType.Cube
      (fun _ => t0) 1 15 2 = [] ∧
    (cubeFaceVertices mk0 blockA nborsA (blockA.param_0 15) DrawType.Cube
        (fun _ => t0) 1 15 2 = [] ↔
      faceCulled mk0 DrawType.Cube (blockA.param_0 15)
        (blockB.param_0 (voxelIndex (Function.update (voxelPos 15) (faceAxis 2)
          ((voxelPos 15 (faceAxis 2) + FACE_DIR 2 (faceAxis 2) + 16) % 16)))) = true) :=
  ⟨(boundary_face_requires_neighbor mk0 blockA (fun _ => none) (blockA.param_0 15)
      DrawType.Cube (fun _ => t0) 1 15 2 (Or.inl rfl) (by decide)).1 rfl,
    (boundary_face_requires_neighbor mk0 blockA nborsA (blockA.param_0 15)
      DrawType.Cube (fun _ => t0) 1 15 2 (Or.inl rfl) (by decide)).2 blockB rfl⟩

/-! ### Frustum culling and render ordering (`MapRender::render`, map.rs
lines 139-192)

The GPU mesh handles, transforms, the view matrix, frustum test and the f32
view-space distance live in external libraries (`wgpu`, `cgmath`,
`collision`); they enter the model as the presence flags of the two mesh
partitions, a culling predicate (`frustum.contains(aabb) == Relation::Out`)
and a distance function (the view-space magnitude of the chunk center),
which the sorting logic merely reads. -/

/-- The presence of the two partitions of a `BlockModel`
    (`mesh.is_some()` / `mesh_blend.is_some()`). -/
structure BlockModelR where
  hasMesh : Bool
  hasBlend : Bool
  deriving DecidableEq

/-- `BlendEntry` from `MapRender::render`: view-space distance, enumeration
    index, and the chunk it draws. -/
structure BlendEntry where
  dist : ℚ
  index : ℕ
  pos : Pos
  deriving DecidableEq

/-- One draw call recorded by the render pass. -/
inductive DrawCmd where
  | opaqueDraw : Pos → DrawCmd
  | blendDraw : Pos → DrawCmd
  deriving DecidableEq

/-- The comparator of `blend.sort_unstable_by`: compare by distance
    (`partial_cmp`, never `None` on real distances), ties broken by the
    enumeration index. -/
def blendLE (a b : BlendEntry) : Prop :=
  a.dist < b.dist ∨ (a.dist = b.dist ∧ a.index ≤ b.index)

instance : DecidableRel blendLE := fun a b => by unfold blendLE; infer_instance

instance : IsTotal BlendEntry blendLE :=
  ⟨fun a b => by
    unfold blendLE
    rcases lt_trichotomy a.dist b.dist with h | h | h
    · exact Or.inl (Or.inl h)
    · rcases Nat.le_total a.index b.index with h2 | h2
      · exact Or.inl (Or.inr ⟨h, h2⟩)
      · exact Or.inr (Or.inr ⟨h.symm, h2⟩)
    · exact Or.inr (Or.inl h)⟩

instance : IsTrans BlendEntry blendLE :=
  ⟨fun a b c hab hbc => by
    unfold blendLE at *
    rcases hab with h1 | ⟨h1, h1i⟩ <;> rcases hbc with h2 | ⟨h2, h2i⟩
    · exact Or.inl (h1.trans h2)
    · exact Or.inl (h2 ▸ h1)
    · exact Or.inl (h1 ▸ h2)
    · exact Or.inr ⟨h1.trans h2, h1i.trans h2i⟩⟩

/-- The `sort_unstable_by` call. On entries with pairwise distinct
    enumeration indices (as `render` produces) the comparator is a total
    order, so any comparison sort returns the same, unique sorted list;
    insertion sort is that function. -/
def sortBlend : List BlendEntry → List BlendEntry := List.insertionSort blendLE

/-- The per-model loop of `MapRender::render`: skip models with no geometry
    in either partition and frustum-culled models; draw the opaque partition
    immediately; push blended partitions onto the blend list keyed by
    view-space distance and enumeration index. -/
def renderCollect (models : List (Pos × BlockModelR)) (culled : Pos → Bool)
    (dist : Pos → ℚ) : List DrawCmd × List BlendEntry :=
  models.enum.foldl
    (fun acc e =>
      if ¬e.2.2.hasMesh ∧ ¬e.2.2.hasBlend then acc
      else if culled e.2.1 then acc
      else
        let acc1 :=
          if e.2.2.hasMesh then (acc.1 ++ [DrawCmd.opaqueDraw e.2.1], acc.2) else acc
        if e.2.2.hasBlend then (acc1.1, acc1.2 ++ [⟨dist e.2.1, e.1, e.2.1⟩]) else acc1)
    ([], [])

/-- `MapRender::render` as the sequence of draw calls it records: the loop's
    immediate opaque draws, then the sorted blend list. -/
def render (models : List (Pos × BlockModelR)) (culled : Pos → Bool)
    (dist : Pos → ℚ) : List DrawCmd :=
  let acc := renderCollect models culled dist
  acc.1 ++ (sortBlend acc.2).map fun e => DrawCmd.blendDraw e.pos

/-- Three blend-only chunk models. -/
def modelsB : List (Pos × BlockModelR) :=
  [(((0 : ℤ), (0 : ℤ), (0 : ℤ)), ⟨false, true⟩),
   (((1 : ℤ), (0 : ℤ), (0 : ℤ)), ⟨false, true⟩),
   (((2 : ℤ), (0 : ℤ), (0 : ℤ)), ⟨false, true⟩)]

/-- Camera distances 5.0, 1.0, 3.0 for the three chunks. -/
def distB : Pos → ℚ :=
  fun p => if p = ((0 : ℤ), (0 : ℤ), (0 : ℤ)) then 5 else if p = (1, 0, 0) then 1 else 3

/-- C1 counterexample: with blended chunks at camera distances
    [5.0, 1.0, 3.0] and nothing culled, the code draws them in ascending
    distance order [1.0, 3.0, 5.0] — not the claimed back-to-front order
    [5.0, 3.0, 1.0]. -/
theorem render_order_counterexample :
    render modelsB (fun _ => false) distB =
      [DrawCmd.blendDraw (1, 0, 0), DrawCmd.blendDraw (2, 0, 0),
        DrawCmd.blendDraw (0, 0, 0)] ∧
    render modelsB (fun _ => false) distB ≠
      [DrawCmd.blendDraw (0, 0, 0), DrawCmd.blendDraw (2, 0, 0),
        DrawCmd.blendDraw (1, 0, 0)] := by
  constructor
  · rfl
  · intro h
    exact absurd (rfl.trans h).symm (by decide)

/-- C1 (amended): every frame draws all opaque partitions first and the
    blended partitions after them, ordered by ascending view-space distance
    from the camera (nearest first — for distances [5.0, 1.0, 3.0] the draw
    order is [1.0, 3.0, 5.0]), with ties broken by ascending insertion
    index; the blend list drawn is a permutation of the collected entries. -/
theorem render_order (models : List (Pos × BlockModelR)) (culled : Pos → Bool)
    (dist : Pos → ℚ) :
    render models culled dist =
      (renderCollect models culled dist).1 ++
        (sortBlend (renderCollect models culled dist).2).map
          (fun e => DrawCmd.blendDraw e.pos) ∧
    (∀ c ∈ (renderCollect models culled dist).1, ∃ p, c = DrawCmd.opaqueDraw p) ∧
    List.Sorted blendLE (sortBlend (renderCollect models culled dist).2) ∧
    (sortBlend (renderCollect models culled dist).2).Perm
      (renderCollect models culled dist).2 ∧
    render modelsB (fun _ => false) distB =
      [DrawCmd.blendDraw (1, 0, 0), DrawCmd.blendDraw (2, 0, 0),
        DrawCmd.blendDraw (0, 0, 0)] := by
  refine ⟨rfl, ?_, List.sorted_insertionSort blendLE _, List.perm_insertionSort blendLE _, rfl⟩
  have hgen : ∀ (l : List (ℕ × Pos × BlockModelR)) (acc : List DrawCmd × List BlendEntry),
      (∀ c ∈ acc.1, ∃ p, c = DrawCmd.opaqueDraw p) →
      ∀ c ∈ (l.foldl (fun acc e =>
        if ¬e.2.2.hasMesh ∧ ¬e.2.2.hasBlend then acc
        else if culled e.2.1 then acc
        else
          let acc1 :=
            if e.2.2.hasMesh then (acc.1 ++ [DrawCmd.opaqueDraw e.2.1], acc.2) else acc
          if e.2.2.hasBlend then (acc1.1, acc1.2 ++ [⟨dist e.2.1, e.1, e.2.1⟩]) else acc1)
        acc).1, ∃ p, c = DrawCmd.opaqueDraw p := by
    intro l
    induction l with
    | nil => intro acc hacc; exact hacc
    | cons e t ih =>
        intro acc hacc
        rw [List.foldl_cons]
        refine ih _ ?_
        dsimp only
        by_cases h1 : ¬e.2.2.hasMesh = true ∧ ¬e.2.2.hasBlend = true
        · rw [if_pos h1]
          exact hacc
        · rw [if_neg h1]
          by_cases h2 : culled e.2.1 = true
          · rw [if_pos h2]
            exact hacc
          · rw [if_neg h2]
            by_cases hb : e.2.2.hasBlend = true
            · rw [if_pos hb]
              by_cases hm : e.2.2.hasMesh = true
              · rw [if_pos hm]
                intro c hc
                rcases List.mem_append.1 hc with hc | hc
                · exact hacc c hc
                · rw [List.mem_singleton] at hc
                  exact ⟨e.2.1, hc⟩
              · rw [if_neg hm]
                intro c hc
                exact hacc c hc
            · rw [if_neg hb]
              by_cases hm : e.2.2.hasMesh = true
              · rw [if_pos hm]
                intro c hc
                rcases List.mem_append.1 hc with hc | hc
                · exact hacc c hc
                · rw [List.mem_singleton] at hc
                  exact ⟨e.2.1, hc⟩
              · rw [if_neg hm]
                exact hacc
  intro c hc
  exact hgen models.enum ([], []) (by intro c hc; simp at hc) c hc

/-! ### The texture atlas builder (src/gfx/map/atlas.rs)

`guillotiere::SimpleAtlasAllocator` and the `image` crate are external
libraries: the allocator is modelled by an abstract interface (a state type
with `allocate`, `grow` and `size`), and a decoded, composited, possibly
frame-cropped texture (`make_texture`) by its dimensions alone, as the
function `texSize` of the texture string — the only properties the
allocation and slot-assignment logic reads. The unbounded `loop` around
`allocator.allocate` is given fuel; `create_atlas` returns `none` when the
fuel runs out, where the source would keep doubling forever. -/

/-- An allocated rectangle. -/
structure Rect where
  minx : ℕ
  miny : ℕ
  width : ℕ
  height : ℕ
  deriving DecidableEq

/-- The interface of `guillotiere::SimpleAtlasAllocator` that create_atlas
    uses: try to allocate a rectangle, grow the canvas, read the canvas
    size. -/
structure Allocator (σ : Type) where
  allocate : σ → ℕ × ℕ → Option (Rect × σ)
  grow : σ → ℕ × ℕ → σ
  size : σ → ℕ × ℕ

/-- The retry loop of create_atlas (atlas.rs lines 81-95): on allocation
    failure double both canvas dimensions, grow, and retry. -/
def allocLoop {σ : Type} (A : Allocator σ) (sz : ℕ × ℕ) : ℕ → σ → Option (Rect × σ)
  | 0, _ => none
  | fuel + 1, st =>
      match A.allocate st sz with
      | some r => some r
      | none => allocLoop A sz fuel (A.grow st (2 * (A.size st).1, 2 * (A.size st).2))

/-- One failed-allocation step: double the canvas and grow. -/
def growStep {σ : Type} (A : Allocator σ) (st : σ) : σ :=
  A.grow st (2 * (A.size st).1, 2 * (A.size st).2)

/-- The allocator states the retry loop visits. -/
def growSeq {σ : Type} (A : Allocator σ) (st : σ) : ℕ → σ
  | 0 => st
  | n + 1 => growStep A (growSeq A st n)

/-- One texture's slot in the atlas: its image dimensions and its rectangle. -/
structure AtlasTexEntry where
  size : ℕ × ℕ
  rect : Rect
  deriving DecidableEq

/-- The builder state threaded through create_atlas: the allocator and the
    `textures` vector (slot index = position). -/
structure AtlasAcc (σ : Type) where
  alloc : σ
  textures : List AtlasTexEntry
  deriving DecidableEq

/-- The per-node `id_map: HashMap<String, usize>`. -/
def lookupS : List (String × ℕ) → String → Option ℕ
  | [], _ => none
  | e :: t, s => if e.1 = s then some e.2 else lookupS t s

/-- The `for tile in tiles` loop of create_atlas (atlas.rs lines 74-97):
    an already-seen texture name reuses its slot from `id_map`; a new name
    is measured, allocated through the retry loop, appended to `textures`
    (its slot being the previous length) and recorded in `id_map`; either
    way `tile.texture.custom` is set to the slot. -/
def processTiles {σ : Type} (A : Allocator σ) (texSize : String → ℕ × ℕ) (fuel : ℕ) :
    List TileDef → AtlasAcc σ → List (String × ℕ) →
    Option (List TileDef × AtlasAcc σ × List (String × ℕ))
  | [], acc, idm => some ([], acc, idm)
  | tile :: rest, acc, idm =>
      match lookupS idm tile.texture_name with
      | some id =>
          match processTiles A texSize fuel rest acc idm with
          | none => none
          | some (ts, acc2, idm2) =>
              some ({ tile with texture_custom := id } :: ts, acc2, idm2)
      | none =>
          match allocLoop A (texSize tile.texture_name) fuel acc.alloc with
          | none => none
          | some (rect, st2) =>
              let id := acc.textures.length
              match processTiles A texSize fuel rest
                  ⟨st2, acc.textures ++ [⟨texSize tile.texture_name, rect⟩]⟩
                  ((tile.texture_name, id) :: idm) with
              | none => none
              | some (ts, acc2, idm2) =>
                  some ({ tile with texture_custom := id } :: ts, acc2, idm2)

/-- A node's tiles in the iteration order of create_atlas:
    `tiles` then `overlay_tiles` then `special_tiles`. -/
def nodeTiles (nd : NodeDef) : List TileDef :=
  (List.finRange 6).map nd.tiles ++ (List.finRange 6).map nd.overlay_tiles ++
    (List.finRange 6).map nd.special_tiles

/-- The `for node in nodes.values_mut()` loop of create_atlas: each node's
    tiles are processed with a fresh `id_map` (atlas.rs line 72 declares it
    inside the node loop), while the allocator and `textures` persist. The
    result is the per-node updated tile lists and the final builder state. -/
def create_atlas {σ : Type} (A : Allocator σ) (texSize : String → ℕ × ℕ) (fuel : ℕ) :
    List (List TileDef) → AtlasAcc σ → Option (List (List TileDef) × AtlasAcc σ)
  | [], acc => some ([], acc)
  | nts :: rest, acc =>
      match processTiles A texSize fuel nts acc [] with
      | none => none
      | some (ts2, acc2, _) =>
          match create_atlas A texSize fuel rest acc2 with
          | none => none
          | some (rest2, acc3) => some (ts2 :: rest2, acc3)

theorem allocLoop_mono {σ : Type} (A : Allocator σ) (sz : ℕ × ℕ) :
    ∀ (fuel : ℕ) (st : σ) (r : Rect × σ), allocLoop A sz fuel st = some r →
      ∀ fuel', fuel ≤ fuel' → allocLoop A sz fuel' st = some r := by
  intro fuel
  induction fuel with
  | zero =>
      intro st r h
      exact absurd h (by simp [allocLoop])
  | succ n ih =>
      intro st r h fuel' hle
      obtain ⟨m, rfl⟩ : ∃ m, fuel' = m + 1 := ⟨fuel' - 1, by omega⟩
      unfold allocLoop at h ⊢
      rcases ha : A.allocate st sz with _ | r0 <;> rw [ha] at h
      · exact ih _ r h m (by omega)
      · exact h

theorem growSeq_shift {σ : Type} (A : Allocator σ) (st : σ) :
    ∀ n, growSeq A st (n + 1) = growSeq A (growStep A st) n := by
  intro n
  induction n with
  | zero => rfl
  | succ m ihm =>
      show growStep A (growSeq A st (m + 1)) = growStep A (growSeq A (growStep A st) m)
      rw [ihm]

theorem allocLoop_of_growSeq {σ : Type} (A : Allocator σ) (sz : ℕ × ℕ) :
    ∀ (n : ℕ) (st : σ), (A.allocate (growSeq A st n) sz).isSome = true →
      ∃ fuel r, allocLoop A sz fuel st = some r := by
  intro n
  induction n with
  | zero =>
      intro st h
      rcases ha : A.allocate st sz with _ | r
      · rw [show growSeq A st 0 = st from rfl, ha] at h
        exact absurd h (by simp)
      · exact ⟨1, r, by unfold allocLoop; rw [ha]⟩
  | succ n ih =>
      intro st h
      rcases ha : A.allocate st sz with _ | r
      · rw [growSeq_shift A st n] at h
        obtain ⟨fuel, r, hfr⟩ := ih (growStep A st) h
        refine ⟨fuel + 1, r, ?_⟩
        unfold allocLoop
        rw [ha]
        exact hfr
      · exact ⟨1, r, by unfold allocLoop; rw [ha]⟩

theorem processTiles_fuel {σ : Type} (A : Allocator σ) (texSize : String → ℕ × ℕ)
    (Hgrow : ∀ (st : σ) (sz : ℕ × ℕ), 0 < sz.1 → 0 < sz.2 →
      ∃ n, (A.allocate (growSeq A st n) sz).isSome = true)
    (Hpos : ∀ name, 0 < (texSize name).1 ∧ 0 < (texSize name).2) :
    ∀ (tiles : List TileDef) (acc : AtlasAcc σ) (idm : List (String × ℕ)),
      ∃ fuel res, ∀ fuel', fuel ≤ fuel' →
        processTiles A texSize fuel' tiles acc idm = some res := by
  intro tiles
  induction tiles with
  | nil => exact fun acc idm => ⟨0, ([], acc, idm), fun fuel' _ => rfl⟩
  | cons tile rest ih =>
      intro acc idm
      rcases hl : lookupS idm tile.texture_name with _ | id
      · obtain ⟨n, hn⟩ := Hgrow acc.alloc (texSize tile.texture_name)
          (Hpos tile.texture_name).1 (Hpos tile.texture_name).2
        obtain ⟨fuel₀, r₀, h₀⟩ := allocLoop_of_growSeq A _ n acc.alloc hn
        obtain ⟨rect₀, st₀⟩ := r₀
        obtain ⟨fuel₁, res₁, h₁⟩ := ih
          ⟨st₀, acc.textures ++ [⟨texSize tile.texture_name, rect₀⟩]⟩
          ((tile.texture_name, acc.textures.length) :: idm)
        obtain ⟨ts₁, acc₁, idm₁⟩ := res₁
        refine ⟨max fuel₀ fuel₁,
          ({ tile with texture_custom := acc.textures.length } :: ts₁, acc₁, idm₁), ?_⟩
        intro fuel' hle
        unfold processTiles
        rw [hl]
        dsimp only
        rw [allocLoop_mono A _ fuel₀ acc.alloc (rect₀, st₀) h₀ fuel'
          (le_trans (le_max_left _ _) hle)]
        dsimp only
        rw [h₁ fuel' (le_trans (le_max_right _ _) hle)]
      · obtain ⟨fuel₁, res₁, h₁⟩ := ih acc idm
        obtain ⟨ts₁, acc₁, idm₁⟩ := res₁
        refine ⟨fuel₁, ({ tile with texture_custom := id } :: ts₁, acc₁, idm₁), ?_⟩
        intro fuel' hle
        unfold processTiles
        rw [hl]
        dsimp only
        rw [h₁ fuel' hle]

theorem create_atlas_fuel {σ : Type} (A : Allocator σ) (texSize : String → ℕ × ℕ)
    (Hgrow : ∀ (st : σ) (sz : ℕ × ℕ), 0 < sz.1 → 0 < sz.2 →
      ∃ n, (A.allocate (growSeq A st n) sz).isSome = true)
    (Hpos : ∀ name, 0 < (texSize name).1 ∧ 0 < (texSize name).2) :
    ∀ (nodes : List (List TileDef)) (acc : AtlasAcc σ),
      ∃ fuel res, ∀ fuel', fuel ≤ fuel' →
        create_atlas A texSize fuel' nodes acc = some res := by
  intro nodes
  induction nodes with
  | nil => exact fun acc => ⟨0, ([], acc), fun fuel' _ => rfl⟩
  | cons nts rest ih =>
      intro acc
      obtain ⟨fuel₀, res₀, h₀⟩ := processTiles_fuel A texSize Hgrow Hpos nts acc []
      obtain ⟨ts₀, acc₀, idm₀⟩ := res₀
      obtain ⟨fuel₁, res₁, h₁⟩ := ih acc₀
      obtain ⟨rest₁, acc₁⟩ := res₁
      refine ⟨max fuel₀ fuel₁, (ts₀ :: rest₁, acc₁), ?_⟩
      intro fuel' hle
      unfold create_atlas
      rw [h₀ fuel' (le_trans (le_max_left _ _) hle)]
      dsimp only
      rw [h₁ fuel' (le_trans (le_max_right _ _) hle)]

/-- C9: the per-texture allocation loop cannot fail permanently — whenever
    some number of canvas doublings makes the allocation succeed, the
    retry loop terminates with a successful allocation; consequently, for
    any finite node list whose textures all have positive dimensions,
    `create_atlas` completes successfully with enough fuel. -/
theorem atlas_allocation_succeeds {σ : Type} (A : Allocator σ)
    (texSize : String → ℕ × ℕ) (nodes : List (List TileDef)) (acc : AtlasAcc σ)
    (Hgrow : ∀ (st : σ) (sz : ℕ × ℕ), 0 < sz.1 → 0 < sz.2 →
      ∃ n, (A.allocate (growSeq A st n) sz).isSome = true)
    (Hpos : ∀ name, 0 < (texSize name).1 ∧ 0 < (texSize name).2) :
    (∀ (st : σ) (sz : ℕ × ℕ), 0 < sz.1 → 0 < sz.2 →
      ∃ fuel r, allocLoop A sz fuel st = some r) ∧
    ∃ fuel out, create_atlas A texSize fuel nodes acc = some out := by
  constructor
  · intro st sz h1 h2
    obtain ⟨n, hn⟩ := Hgrow st sz h1 h2
    exact allocLoop_of_growSeq A sz n st hn
  · obtain ⟨fuel, res, h⟩ := create_atlas_fuel A texSize Hgrow Hpos nodes acc
    exact ⟨fuel, res, h fuel le_rfl⟩

/-- An always-succeeding allocator over a trivial state. -/
def unitAlloc : Allocator Unit :=
  ⟨fun _ _ => some (⟨0, 0, 1, 1⟩, ()), fun _ _ => (), fun _ => (1, 1)⟩

theorem atlas_allocation_succeeds_witness :
    (∀ (st : Unit) (sz : ℕ × ℕ), 0 < sz.1 → 0 < sz.2 →
      ∃ fuel r, allocLoop unitAlloc sz fuel st = some r) ∧
    ∃ fuel out, create_atlas unitAlloc (fun _ => (1, 1)) fuel
      [nodeTiles cubeNode, nodeTiles liquidNode] ⟨(), []⟩ = some out :=
  atlas_allocation_succeeds unitAlloc (fun _ => (1, 1))
    [nodeTiles cubeNode, nodeTiles liquidNode] ⟨(), []⟩
    (fun st sz h1 h2 => ⟨0, rfl⟩) (fun name => ⟨Nat.one_pos, Nat.one_pos⟩)

theorem processTiles_lookup {σ : Type} (A : Allocator σ) (texSize : String → ℕ × ℕ)
    (fuel : ℕ) :
    ∀ (tiles : List TileDef) (acc : AtlasAcc σ) (idm : List (String × ℕ))
      (out : List TileDef) (acc' : AtlasAcc σ) (idm' : List (String × ℕ)),
      processTiles A texSize fuel tiles acc idm = some (out, acc', idm') →
      (∀ name id, lookupS idm name = some id → lookupS idm' name = some id) ∧
      (∀ t ∈ out, lookupS idm' t.texture_name = some t.texture_custom) := by
  intro tiles
  induction tiles with
  | nil =>
      intro acc idm out acc' idm' h
      unfold processTiles at h
      rw [Option.some.injEq, Prod.mk.injEq, Prod.mk.injEq] at h
      obtain ⟨h1, -, h3⟩ := h
      subst h1
      subst h3
      exact ⟨fun name id h => h, fun t ht => absurd ht (by simp)⟩
  | cons tile rest ih =>
      intro acc idm out acc' idm' h
      unfold processTiles at h
      rcases hl : lookupS idm tile.texture_name with _ | id
      · rw [hl] at h
        dsimp only at h
        rcases ha : allocLoop A (texSize tile.texture_name) fuel acc.alloc with _ | r
        · rw [ha] at h
          exact absurd h (by simp)
        · obtain ⟨rect₀, st₀⟩ := r
          rw [ha] at h
          dsimp only at h
          rcases hr : processTiles A texSize fuel rest
              ⟨st₀, acc.textures ++ [⟨texSize tile.texture_name, rect₀⟩]⟩
              ((tile.texture_name, acc.textures.length) :: idm) with _ | res
          · rw [hr] at h
            exact absurd h (by simp)
          · obtain ⟨ts, acc₂, idm₂⟩ := res
            rw [hr] at h
            dsimp only at h
            rw [Option.some.injEq, Prod.mk.injEq, Prod.mk.injEq] at h
            obtain ⟨h1, -, h3⟩ := h
            subst h3
            obtain ⟨hpersist, hout⟩ := ih _ _ _ _ _ hr
            constructor
            · intro name0 id0 h0
              refine hpersist name0 id0 ?_
              have hne : tile.texture_name ≠ name0 := by
                intro he
                rw [← he] at h0
                rw [h0] at hl
                exact absurd hl (by simp)
              unfold lookupS
              rw [if_neg hne]
              exact h0
            · rw [← h1]
              intro t ht
              rcases List.mem_cons.1 ht with ht | ht
              · rw [ht]
                exact hpersist tile.texture_name acc.textures.length
                  (by unfold lookupS; rw [if_pos rfl])
              · exact hout t ht
      · rw [hl] at h
        dsimp only at h
        rcases hr : processTiles A texSize fuel rest acc idm with _ | res
        · rw [hr] at h
          exact absurd h (by simp)
        · obtain ⟨ts, acc₂, idm₂⟩ := res
          rw [hr] at h
          dsimp only at h
          rw [Option.some.injEq, Prod.mk.injEq, Prod.mk.injEq] at h
          obtain ⟨h1, -, h3⟩ := h
          subst h3
          obtain ⟨hpersist, hout⟩ := ih _ _ _ _ _ hr
          refine ⟨hpersist, ?_⟩
          rw [← h1]
          intro t ht
          rcases List.mem_cons.1 ht with ht | ht
          · rw [ht]
            exact hpersist tile.texture_name id hl
          · exact hout t ht

/-- Within a single node, equal texture names get equal atlas slots. -/
theorem processTiles_dedup {σ : Type} (A : Allocator σ) (texSize : String → ℕ × ℕ)
    (fuel : ℕ) (tiles : List TileDef) (acc : AtlasAcc σ) (out : List TileDef)
    (acc' : AtlasAcc σ) (idm' : List (String × ℕ))
    (h : processTiles A texSize fuel tiles acc [] = some (out, acc', idm')) :
    ∀ t1 ∈ out, ∀ t2 ∈ out, t1.texture_name = t2.texture_name →
      t1.texture_custom = t2.texture_custom := by
  obtain ⟨-, hout⟩ := processTiles_lookup A texSize fuel tiles acc [] out acc' idm' h
  intro t1 h1 t2 h2 hn
  have e1 := hout t1 h1
  have e2 := hout t2 h2
  rw [hn] at e1
  rw [e1, Option.some.injEq] at e2
  exact e2

/-- C7 (amended): after `create_atlas` completes, any two tiles of the same
    node whose texture names are equal are assigned the same atlas slot
    index; the dedup map is created anew for each node, so the guarantee
    does not span nodes. -/
theorem create_atlas_dedup_within_node {σ : Type} (A : Allocator σ)
    (texSize : String → ℕ × ℕ) (fuel : ℕ) :
    ∀ (nodes : List (List TileDef)) (acc : AtlasAcc σ) (out : List (List TileDef))
      (acc' : AtlasAcc σ),
      create_atlas A texSize fuel nodes acc = some (out, acc') →
      ∀ ts ∈ out, ∀ t1 ∈ ts, ∀ t2 ∈ ts,
        t1.texture_name = t2.texture_name → t1.texture_custom = t2.texture_custom := by
  intro nodes
  induction nodes with
  | nil =>
      intro acc out acc' h
      unfold create_atlas at h
      rw [Option.some.injEq, Prod.mk.injEq] at h
      rw [← h.1]
      intro ts hts
      exact absurd hts (by simp)
  | cons nts rest ih =>
      intro acc out acc' h
      unfold create_atlas at h
      rcases hp : processTiles A texSize fuel nts acc [] with _ | r1
      · rw [hp] at h
        exact absurd h (by simp)
      · obtain ⟨ts₀, acc₀, idm₀⟩ := r1
        rw [hp] at h
        dsimp only at h
        rcases hc : create_atlas A texSize fuel rest acc₀ with _ | r2
        · rw [hc] at h
          exact absurd h (by simp)
        · obtain ⟨rest₁, acc₁⟩ := r2
          rw [hc] at h
          dsimp only at h
          rw [Option.some.injEq, Prod.mk.injEq] at h
          rw [← h.1]
          intro ts hts
          rcases List.mem_cons.1 hts with hts | hts
          · rw [hts]
            exact processTiles_dedup A texSize fuel nts acc ts₀ acc₀ idm₀ hp
          · exact ih acc₀ rest₁ acc₁ hc ts hts

/-- C7 counterexample: two nodes whose tiles all use the same texture string
    "t" receive two different atlas slots (0 for the first node's tiles, 1
    for the second node's): the dedup map is per node, not global. -/
theorem create_atlas_dedup_counterexample :
    ((create_atlas unitAlloc (fun _ => (1, 1)) 1 [nodeTiles cubeNode, nodeTiles cubeNode]
        ⟨(), []⟩).map fun r => r.1.map fun ts => ts.map TileDef.texture_custom) =
      some [List.replicate 18 0, List.replicate 18 1] ∧
    (nodeTiles cubeNode).map TileDef.texture_name = List.replicate 18 "t" ∧
    (0 : ℕ) ≠ 1 := by
  refine ⟨?_, by decide, by decide⟩
  rfl

theorem create_atlas_dedup_within_node_witness :
    create_atlas unitAlloc (fun _ => (1, 1)) 1 [nodeTiles cubeNode] ⟨(), []⟩ =
      some ([List.replicate 18 ⟨"t", 0, true⟩],
        ⟨(), [⟨(1, 1), ⟨0, 0, 1, 1⟩⟩]⟩) ∧
    (∀ t1 ∈ List.replicate 18 (⟨"t", 0, true⟩ : TileDef),
      ∀ t2 ∈ List.replicate 18 (⟨"t", 0, true⟩ : TileDef),
      t1.texture_name = t2.texture_name → t1.texture_custom = t2.texture_custom) :=
  ⟨by decide,
    create_atlas_dedup_within_node unitAlloc (fun _ => (1, 1)) 1 [nodeTiles cubeNode]
      ⟨(), []⟩ [List.replicate 18 ⟨"t", 0, true⟩] ⟨(), [⟨(1, 1), ⟨0, 0, 1, 1⟩⟩]⟩
      (by decide) (List.replicate 18 ⟨"t", 0, true⟩) (by decide)⟩

end MtClient
